import Mathlib

/-!
Verification of the incremental JSON extraction and recovery engine of the
regu-graph-explorer repository.

The definitions below are a shallow embedding of the TypeScript sources:
  - `src/services/streaming/StreamingParser.ts` (embedded in the repository
    README): `StreamingParser` with `processChunk`, `extractMetadata`,
    `extractNewNodes`, `extractCompleteObjects`, `isValidHierarchyNode`,
    `isParsingComplete`, `resetState`;
  - `src/services/streaming/EnhancedStreamingService.ts`:
    `streamDocumentParsing`, `mergeHierarchyNode`, `mergeChildren`,
    `finalizeMergedResults`;
  - `src/services/streaming/DocumentChunker.ts`: `chunkDocument`,
    `estimateTokenCount`, `exceedsTokenLimit`;
  - `src/services/documentService.ts`: `parseJSONWithRecovery`.

Strings are modelled as `List Char` (the sources walk strings one character
at a time).  JavaScript's built-in `JSON.parse` is modelled by the
recursive-descent parser `jsonParse` below, which follows the JSON grammar
that `JSON.parse` accepts (whitespace, objects, arrays, strings with escape
sequences, numbers, `true`/`false`/`null`, rejecting raw control characters
inside strings and trailing input).  Numeric literals are kept verbatim
(`Json.num raw`): no claim below compares numbers across different literal
spellings, so this representation is faithful for every statement we prove.
-/

set_option maxRecDepth 8192

namespace ReguGraph

/-- JSON values as produced by `JSON.parse`.  Object fields are kept in
source order; `getField` below returns the last binding of a key, matching
JavaScript's last-write-wins semantics for duplicate keys. -/
inductive Json where
  | null
  | bool (b : Bool)
  | num (raw : String)
  | str (s : String)
  | arr (elements : List Json)
  | obj (fields : List (String × Json))
deriving Repr

/-- The four whitespace characters accepted by the JSON grammar. -/
def jsonWs (c : Char) : Bool :=
  c = ' ' || c = '\t' || c = '\n' || c = '\r'

/-- JavaScript's regular-expression class `\s` (WhiteSpace plus
LineTerminator, including the Unicode space separators). -/
def regexWs (c : Char) : Bool :=
  c = ' ' || c = '\t' || c = '\n' || c = '\r' || c = '\x0b' || c = '\x0c' ||
  c.toNat = 0xa0 || c.toNat = 0x1680 ||
  (0x2000 ≤ c.toNat && c.toNat ≤ 0x200a) ||
  c.toNat = 0x2028 || c.toNat = 0x2029 || c.toNat = 0x202f ||
  c.toNat = 0x205f || c.toNat = 0x3000 || c.toNat = 0xfeff

/-- Drop leading JSON whitespace. -/
def dropJsonWs (l : List Char) : List Char := l.dropWhile jsonWs

/-- `String.prototype.trim` (same character class as `\s`). -/
def jsTrim (l : List Char) : List Char :=
  ((l.dropWhile regexWs).reverse.dropWhile regexWs).reverse

/-- Value of a hexadecimal digit. -/
def hexVal (c : Char) : Option Nat :=
  if '0' ≤ c ∧ c ≤ '9' then some (c.toNat - '0'.toNat)
  else if 'a' ≤ c ∧ c ≤ 'f' then some (c.toNat - 'a'.toNat + 10)
  else if 'A' ≤ c ∧ c ≤ 'F' then some (c.toNat - 'A'.toNat + 10)
  else none

/-- Decode one escape sequence (the text after a backslash): the decoded
character and the remaining input. -/
def escStep : List Char → Option (Char × List Char)
  | '"' :: r => some ('"', r)
  | '\\' :: r => some ('\\', r)
  | '/' :: r => some ('/', r)
  | 'b' :: r => some ('\x08', r)
  | 'f' :: r => some ('\x0c', r)
  | 'n' :: r => some ('\n', r)
  | 'r' :: r => some ('\r', r)
  | 't' :: r => some ('\t', r)
  | 'u' :: h1 :: h2 :: h3 :: h4 :: r =>
    match hexVal h1, hexVal h2, hexVal h3, hexVal h4 with
    | some a, some b, some c, some d =>
      some (Char.ofNat (((a * 16 + b) * 16 + c) * 16 + d), r)
    | _, _, _, _ => none
  | _ => none

/-- Body of a JSON string literal, after the opening quote: returns the
decoded characters and the input following the closing quote.  Escape
sequences are decoded as `JSON.parse` does; raw control characters are
rejected.  The fuel only serves the termination argument; every step
consumes at least one character, so callers pass the input length. -/
def parseStrBody : Nat → List Char → Option (List Char × List Char)
  | 0, _ => none
  | fuel + 1, l =>
    match l with
    | [] => none
    | c :: rest =>
      if c = '"' then some ([], rest)
      else if c = '\\' then
        match escStep rest with
        | some (d, r) => (parseStrBody fuel r).map (fun p => (d :: p.1, p.2))
        | none => none
      else if c.toNat < 32 then none
      else (parseStrBody fuel rest).map (fun p => (c :: p.1, p.2))

/-- Take a maximal run of decimal digits. -/
def takeDigits : List Char → List Char × List Char
  | [] => ([], [])
  | c :: rest =>
    if c.isDigit then
      let p := takeDigits rest
      (c :: p.1, p.2)
    else ([], c :: rest)

/-- Integer part of a JSON number (a single `0`, or a nonzero digit followed
by digits). -/
def parseIntPart : List Char → Option (List Char × List Char)
  | [] => none
  | '0' :: rest => some (['0'], rest)
  | c :: rest =>
    if c.isDigit then
      let p := takeDigits rest
      some (c :: p.1, p.2)
    else none

/-- A JSON numeric literal; the consumed characters are returned verbatim. -/
def parseNumLit (l : List Char) : Option (List Char × List Char) :=
  let sp : Bool × List Char := match l with
    | '-' :: r => (true, r)
    | _ => (false, l)
  match parseIntPart sp.2 with
  | none => none
  | some (ip, r1) =>
    let fp : List Char × List Char := match r1 with
      | '.' :: rr =>
        (match takeDigits rr with
         | ([], _) => ([], r1)
         | (ds, r3) => ('.' :: ds, r3))
      | _ => ([], r1)
    let ep : List Char × List Char := match fp.2 with
      | e :: rr =>
        if e = 'e' || e = 'E' then
          let sg : List Char × List Char := match rr with
            | '+' :: x => (['+'], x)
            | '-' :: x => (['-'], x)
            | _ => ([], rr)
          match takeDigits sg.2 with
          | ([], _) => ([], fp.2)
          | (ds, r5) => (e :: (sg.1 ++ ds), r5)
        else ([], fp.2)
      | [] => ([], fp.2)
    some ((if sp.1 then ['-'] else []) ++ ip ++ fp.1 ++ ep.1, ep.2)

mutual

/-- Parse one JSON value (after skipping leading whitespace); fuel-indexed
recursive descent. -/
def parseValue : Nat → List Char → Option (Json × List Char)
  | 0, _ => none
  | fuel + 1, l =>
    match dropJsonWs l with
    | [] => none
    | '{' :: rest => parseObjBody fuel rest
    | '[' :: rest => parseArrBody fuel rest
    | '"' :: rest =>
      (parseStrBody rest.length rest).map (fun p => (Json.str (String.mk p.1), p.2))
    | 't' :: 'r' :: 'u' :: 'e' :: rest => some (Json.bool true, rest)
    | 'f' :: 'a' :: 'l' :: 's' :: 'e' :: rest => some (Json.bool false, rest)
    | 'n' :: 'u' :: 'l' :: 'l' :: rest => some (Json.null, rest)
    | l2 => (parseNumLit l2).map (fun p => (Json.num (String.mk p.1), p.2))

/-- Parse an object body (the input starts right after `\x7b`). -/
def parseObjBody : Nat → List Char → Option (Json × List Char)
  | 0, _ => none
  | fuel + 1, l =>
    match dropJsonWs l with
    | '}' :: rest => some (Json.obj [], rest)
    | _ => parseObjFields fuel l []

/-- Parse the fields of a non-empty object body. -/
def parseObjFields : Nat → List Char → List (String × Json) → Option (Json × List Char)
  | 0, _, _ => none
  | fuel + 1, l, acc =>
    match dropJsonWs l with
    | '"' :: rest =>
      match parseStrBody rest.length rest with
      | none => none
      | some (key, r1) =>
        match dropJsonWs r1 with
        | ':' :: r2 =>
          match parseValue fuel r2 with
          | none => none
          | some (v, r3) =>
            match dropJsonWs r3 with
            | ',' :: r4 => parseObjFields fuel r4 (acc ++ [(String.mk key, v)])
            | '}' :: r4 => some (Json.obj (acc ++ [(String.mk key, v)]), r4)
            | _ => none
        | _ => none
    | _ => none

/-- Parse an array body (the input starts right after `[`). -/
def parseArrBody : Nat → List Char → Option (Json × List Char)
  | 0, _ => none
  | fuel + 1, l =>
    match dropJsonWs l with
    | ']' :: rest => some (Json.arr [], rest)
    | _ => parseArrElems fuel l []

/-- Parse the elements of a non-empty array body. -/
def parseArrElems : Nat → List Char → List Json → Option (Json × List Char)
  | 0, _, _ => none
  | fuel + 1, l, acc =>
    match parseValue fuel l with
    | none => none
    | some (v, r1) =>
      match dropJsonWs r1 with
      | ',' :: r2 => parseArrElems fuel r2 (acc ++ [v])
      | ']' :: r2 => some (Json.arr (acc ++ [v]), r2)
      | _ => none

end

/-- Model of `JSON.parse`: parse one value, then require only whitespace to
remain.  The fuel `3 * length + 3` dominates the recursion depth of the
descent (each nesting level consumes at least one input character and at
most three fuel steps), so no `JSON.parse`-accepted input is rejected for
lack of fuel. -/
def jsonParse (l : List Char) : Option Json :=
  match parseValue (3 * l.length + 3) l with
  | some (v, rest) => if dropJsonWs rest = [] then some v else none
  | none => none

/-- Field lookup on a JSON object (last binding wins, as in JavaScript). -/
def lookupLast (fs : List (String × Json)) (k : String) : Option Json :=
  fs.foldl (fun acc p => if p.1 = k then some p.2 else acc) none

/-- `j[k]` for a JSON object; `none` for any other value. -/
def Json.getField : Json → String → Option Json
  | Json.obj fs, k => lookupLast fs k
  | _, _ => none

/-- Whether a JSON value is an object that binds the key `k`. -/
def Json.hasField (j : Json) (k : String) : Bool :=
  (j.getField k).isSome

/-- Match a prefix of characters literally, returning the remainder. -/
def expectPrefixChars : List Char → List Char → Option (List Char)
  | [], l => some l
  | _ :: _, [] => none
  | p :: ps, c :: cs => if c = p then expectPrefixChars ps cs else none

/-- Drop a maximal run of regex whitespace (`\s*`). -/
def dropRegexWs (l : List Char) : List Char := l.dropWhile regexWs

/-- The literal `"hierarchy"` (with its quotes) of the hierarchy regex. -/
def hierarchyLit : List Char :=
  ['"', 'h', 'i', 'e', 'r', 'a', 'r', 'c', 'h', 'y', '"']

/-- The literal `"metadata"` (with its quotes) of the metadata regexes. -/
def metadataLit : List Char :=
  ['"', 'm', 'e', 't', 'a', 'd', 'a', 't', 'a', '"']

/-! ## StreamingParser (README-embedded `StreamingParser.ts`) -/

namespace StreamingParser

/-- Control part of the brace/string-aware scanner of
`extractCompleteObjects`: brace depth, whether the cursor is inside a string
literal, and the escape flag (`braceCount`, `inString`, `escapeNext` in the
source). -/
structure ScanState where
  braceCount : Int
  inString : Bool
  escapeNext : Bool
deriving Repr, DecidableEq

def initScan : ScanState := ⟨0, false, false⟩

/-- One character step of the scanner's control state, in the source's
order: an escaped character is consumed without further effect; a backslash
sets the escape flag; an unescaped quote toggles `inString`; braces outside
a string adjust the depth. -/
def scanStep (st : ScanState) (c : Char) : ScanState :=
  if st.escapeNext then { st with escapeNext := false }
  else if c = '\\' then { st with escapeNext := true }
  else
    let inStr := if c = '"' then !st.inString else st.inString
    let depth : Int :=
      if !inStr then
        if c = '{' then st.braceCount + 1
        else if c = '}' then st.braceCount - 1
        else st.braceCount
      else st.braceCount
    ⟨depth, inStr, false⟩

/-- Scanner control state after the first `i` characters of `l`. -/
def scanPrefix (l : List Char) (i : Nat) : ScanState :=
  (l.take i).foldl scanStep initScan

/-- Full state of the `extractCompleteObjects` loop: control state plus
`currentObject`, `objectStart` (`none` models the source's `-1`), the loop
index, and the spans completed so far as `(start, end, text)` with both
endpoints inclusive. -/
structure ObjScanState where
  ctrl : ScanState
  currentObject : List Char
  objectStart : Option Nat
  idx : Nat
  found : List (Nat × Nat × List Char)
deriving Repr

def initObjScan : ObjScanState := ⟨initScan, [], none, 0, []⟩

/-- One iteration of the `extractCompleteObjects` loop.  The two escape
branches `continue` in the source, skipping the `objectStart`/completion
handling but updating the escape flag and `currentObject`; both are exactly
`scanStep` on the control state, as is the control update of the main
branch.  The open condition (`char === '\x7b'` at depth 0 outside a string)
reads the pre-character `inString`, which equals the source's post-toggle
value because `\x7b` is not a quote.  The completion check fires when the
new depth is 0 with a recorded start and a non-blank `currentObject`. -/
def objScanStep (st : ObjScanState) (c : Char) : ObjScanState :=
  if st.ctrl.escapeNext = true ∨ c = '\\' then
    { st with ctrl := scanStep st.ctrl c,
              currentObject := st.currentObject ++ [c], idx := st.idx + 1 }
  else
    let ctrl2 := scanStep st.ctrl c
    let opened : Prop := st.ctrl.inString = false ∧ c = '{' ∧ st.ctrl.braceCount = 0
    let start := if opened then some st.idx else st.objectStart
    let cur := (if opened then [] else st.currentObject) ++ [c]
    match start with
    | some a =>
      if ctrl2.braceCount = 0 ∧ jsTrim cur ≠ [] then
        ⟨ctrl2, [], none, st.idx + 1, st.found ++ [(a, st.idx, cur)]⟩
      else ⟨ctrl2, cur, some a, st.idx + 1, st.found⟩
    | none => ⟨ctrl2, cur, none, st.idx + 1, st.found⟩

def runObjScan (l : List Char) : ObjScanState := l.foldl objScanStep initObjScan

/-- The candidate object spans collected by `extractCompleteObjects`'s loop,
before the speculative parse/validation filter. -/
def extractCompleteObjectsSpans (l : List Char) : List (Nat × Nat × List Char) :=
  (runObjScan l).found

/-- `isValidHierarchyNode`: duck-typed shape check (`typeof obj.id ===
'string'`, etc.). -/
def isValidHierarchyNode (j : Json) : Bool :=
  match j with
  | Json.obj _ =>
    (match j.getField "id" with | some (Json.str _) => true | _ => false) &&
    (match j.getField "type" with | some (Json.str _) => true | _ => false) &&
    (match j.getField "level" with | some (Json.num _) => true | _ => false) &&
    (match j.getField "references" with | some (Json.arr _) => true | _ => false) &&
    (match j.getField "children" with | some (Json.arr _) => true | _ => false)
  | _ => false

/-- `extractCompleteObjects`: each completed span is trimmed, speculatively
parsed, and kept only when it validates as a hierarchy node.  (In the
source the parse attempt is inlined in the loop but does not influence the
scanning state, so the loop factors into span collection plus this
filter.) -/
def extractCompleteObjects (l : List Char) : List Json :=
  (extractCompleteObjectsSpans l).filterMap (fun sp =>
    match jsonParse (jsTrim sp.2.2) with
    | some j => if isValidHierarchyNode j then some j else none
    | none => none)

/-- Try the regex `/"hierarchy"\s*:\s*\[/` at the head of `l`; on success
return the text after the `[` (the source continues scanning from
`hierarchyMatch.index + hierarchyMatch[0].length`). -/
def matchHierarchyAt (l : List Char) : Option (List Char) :=
  match expectPrefixChars hierarchyLit l with
  | none => none
  | some r1 =>
    match dropRegexWs r1 with
    | c2 :: r2 =>
      if c2 = ':' then
        match dropRegexWs r2 with
        | c3 :: r3 => if c3 = '[' then some r3 else none
        | [] => none
      else none
    | [] => none

/-- Leftmost match of the hierarchy-array opening, as `String.match` finds
it: try each start position from the left. -/
def findHierarchyContent : List Char → Option (List Char)
  | [] => none
  | c :: rest =>
    match matchHierarchyAt (c :: rest) with
    | some r => some r
    | none => findHierarchyContent rest

/-- Consume characters up to and including the first `\x7d`. -/
def takeThroughCloseBrace : List Char → Option (List Char)
  | [] => none
  | c :: rest =>
    if c = '}' then some [c]
    else match takeThroughCloseBrace rest with
      | some pre => some (c :: pre)
      | none => none

/-- Try the metadata regex
`/"metadata"\s*:\s*(\x7b[^\x7d]*(?:\x7b[^\x7d]*\x7d[^\x7d]*)*\x7d)/`
at the head of `l`.  Because `[^\x7d]*` also consumes `\x7b`, the greedy
first run always stops right before the first `\x7d` after the opening
brace, the inner group then matches zero times, and the final `\x7d`
consumes that first close brace: the capture group is exactly the text from
the opening `\x7b` through the first following `\x7d` (and the regex fails
at this position when no close brace follows). -/
def matchMetadataAt (l : List Char) : Option (List Char) :=
  match expectPrefixChars metadataLit l with
  | none => none
  | some r1 =>
    match dropRegexWs r1 with
    | ':' :: r2 =>
      match dropRegexWs r2 with
      | '{' :: r3 =>
        match takeThroughCloseBrace r3 with
        | some body => some ('{' :: body)
        | none => none
      | _ => none
    | _ => none

/-- Leftmost match of the metadata regex (capture group only). -/
def metadataCapture : List Char → Option (List Char)
  | [] => none
  | c :: rest =>
    match matchMetadataAt (c :: rest) with
    | some cap => some cap
    | none => metadataCapture rest

/-- `extractMetadata`: regex-capture the metadata region, wrap it as
`\x7b"metadata":…\x7d`, parse, and return the `metadata` field; any parse
failure is swallowed and yields `none`. -/
def extractMetadata (l : List Char) : Option Json :=
  match metadataCapture l with
  | none => none
  | some cap =>
    match jsonParse ("\x7b\"metadata\":".data ++ cap ++ "\x7d".data) with
    | some parsed => parsed.getField "metadata"
    | none => none

/-- `StreamingParseState` of the source (the `error` field is never
written and is omitted). -/
structure StreamingParseState where
  accumulatedJson : List Char
  parsedMetadata : Option Json
  parsedNodes : List Json
  currentChunkIndex : Nat
  isComplete : Bool
  lastValidJsonEnd : Nat
deriving Repr

/-- The state installed by the constructor (which calls `resetState`). -/
def initialState : StreamingParseState := ⟨[], none, [], 0, false, 0⟩

/-- `resetState()`: replaces the whole state with a fresh literal
(`parsedMetadata` is simply absent from the literal, i.e. `none`). -/
def resetState (_st : StreamingParseState) : StreamingParseState := initialState

/-- `extractNewNodes`: find the hierarchy opening, extract all complete
objects after it, and return only those beyond the count already parsed. -/
def extractNewNodes (st : StreamingParseState) : List Json :=
  match findHierarchyContent st.accumulatedJson with
  | none => []
  | some content => (extractCompleteObjects content).drop st.parsedNodes.length

/-- `isParsingComplete`: the trimmed buffer starts with `\x7b`, ends with
`\x7d`, and parses as JSON. -/
def isParsingComplete (l : List Char) : Bool :=
  let trimmed := jsTrim l
  (trimmed.head? = some '{') && (trimmed.getLast? = some '}') &&
  (jsonParse trimmed).isSome

/-- Events returned by `processChunk`.  The source's `ParsedChunk` also
carries `isPartial` (constantly `false` on these events) and `chunkIndex`
(copied from the argument); the `error` variant is produced only by the
outer catch, whose body cannot throw in this model (every helper catches
its own exceptions), so it has no constructor here. -/
inductive ParsedChunk where
  | metadata (data : Json)
  | node (data : Json)
  | complete (metadata : Option Json) (hierarchy : List Json)
deriving Repr

/-- The metadata-emission phase of `processChunk`: emit a `metadata` event
and latch `parsedMetadata` the first time `extractMetadata` succeeds. -/
def metaStep (st0 : StreamingParseState) : List ParsedChunk × StreamingParseState :=
  match st0.parsedMetadata with
  | some _ => ([], st0)
  | none =>
    match extractMetadata st0.accumulatedJson with
    | some m => ([ParsedChunk.metadata m], { st0 with parsedMetadata := some m })
    | none => ([], st0)

/-- `processChunk`: append the chunk, emit metadata once, emit newly
completed nodes, then emit completion when the whole buffer parses. -/
def processChunk (st : StreamingParseState) (chunk : List Char) (chunkIndex : Nat) :
    List ParsedChunk × StreamingParseState :=
  let st0 := { st with currentChunkIndex := chunkIndex,
                       accumulatedJson := st.accumulatedJson ++ chunk }
  let ms := metaStep st0
  let st1 := ms.2
  let newNodes := extractNewNodes st1
  let st2 := { st1 with parsedNodes := st1.parsedNodes ++ newNodes }
  let evs := ms.1 ++ newNodes.map ParsedChunk.node
  if isParsingComplete st2.accumulatedJson then
    (evs ++ [ParsedChunk.complete st2.parsedMetadata st2.parsedNodes],
     { st2 with isComplete := true })
  else (evs, st2)

/-- Feed a sequence of fragments through one parser instance (the default
`chunkIndex = 0`, as in the single-document path). -/
def runChunks (st : StreamingParseState) : List (List Char) →
    List ParsedChunk × StreamingParseState
  | [] => ([], st)
  | c :: rest =>
    let p := processChunk st c 0
    let q := runChunks p.2 rest
    (p.1 ++ q.1, q.2)

end StreamingParser

/-! ## Recovery parser (`parseJSONWithRecovery` in `documentService.ts`) -/

namespace documentService

/-- Index of the first occurrence of a character. -/
def idxOfFirst (c : Char) (l : List Char) : Option Nat := l.findIdx? (· = c)

/-- Index of the last occurrence of a character. -/
def idxOfLast (c : Char) (l : List Char) : Option Nat :=
  match l.reverse.findIdx? (· = c) with
  | some k => some (l.length - 1 - k)
  | none => none

/-- The regex `/\x7b[\s\S]*\x7d/`: with the greedy middle, the match runs
from the first `\x7b` to the last `\x7d` of the text, provided that close
brace comes after the open brace (otherwise no start position can complete
the pattern). -/
def outermostSpan (l : List Char) : Option (List Char) :=
  match idxOfFirst '{' l, idxOfLast '}' l with
  | some i, some j => if i < j then some ((l.drop i).take (j + 1 - i)) else none
  | _, _ => none

/-- Step 1: parse the outermost brace span directly (`JSON.parse` failures
are caught). -/
def recoveryStep1 (text : List Char) : Option Json := (outermostSpan text).bind jsonParse

def fenceLit : List Char := "```".data

def fenceJsonLit : List Char := "json".data

/-- Opening of the fenced-block regex at the head of `l`: three backticks,
an optional `json` tag (greedy, with the regex's backtrack to the untagged
alternative), `\s*`, then the opening brace; returns the text after that
brace. -/
def matchFenceOpenAt (l : List Char) : Option (List Char) :=
  match expectPrefixChars fenceLit l with
  | none => none
  | some r1 =>
    let withTag : Option (List Char) :=
      match expectPrefixChars fenceJsonLit r1 with
      | some r2 =>
        (match dropRegexWs r2 with
         | '{' :: r3 => some r3
         | _ => none)
      | none => none
    match withTag with
    | some r3 => some r3
    | none =>
      match dropRegexWs r1 with
      | '{' :: r3 => some r3
      | _ => none

/-- The lazy middle `[\s\S]*?` of the fenced-block regex: find the first
`\x7d` that is followed (after `\s*`) by a closing fence, returning the
characters before it. -/
def fenceCloseScan : List Char → Option (List Char)
  | [] => none
  | c :: rest =>
    if c = '}' ∧ (expectPrefixChars fenceLit (dropRegexWs rest)).isSome then some []
    else
      match fenceCloseScan rest with
      | some mid => some (c :: mid)
      | none => none

/-- Capture group of /```(?:json)?\s*(\x7b[\s\S]*?\x7d)\s*```/ at one
start position. -/
def matchFenceAt (l : List Char) : Option (List Char) :=
  (matchFenceOpenAt l).bind fun r3 =>
    (fenceCloseScan r3).map fun mid => '{' :: (mid ++ ['}'])

/-- Leftmost match of the fenced-block regex (capture group only). -/
def fenceCapture : List Char → Option (List Char)
  | [] => none
  | c :: rest =>
    match matchFenceAt (c :: rest) with
    | some cap => some cap
    | none => fenceCapture rest

/-- Step 2: parse the interior of a fenced code block. -/
def recoveryStep2 (text : List Char) : Option Json := (fenceCapture text).bind jsonParse

/-- Global replace of `/,\s*X/` by `X` for a closing character `X` (the
trailing-comma fixes).  Fuel-indexed left-to-right scan; the fuel is always
instantiated above the input length, so the `0` branch is never reached. -/
def replCommaClose (close : Char) : Nat → List Char → List Char
  | 0, l => l
  | _, [] => []
  | fuel + 1, c :: rest =>
    if c = ',' then
      match rest.dropWhile regexWs with
      | d :: r3 =>
        if d = close then close :: replCommaClose close fuel r3
        else c :: replCommaClose close fuel rest
      | [] => c :: replCommaClose close fuel rest
    else c :: replCommaClose close fuel rest

/-- JavaScript's `\w` class. -/
def isWordChar (c : Char) : Bool := c.isAlphanum || c = '_'

/-- Global replace of `/([\x7b,]\s*)(\w+):/` by `$1"$2":` (quote bare
object keys). -/
def replQuoteKeys : Nat → List Char → List Char
  | 0, l => l
  | _, [] => []
  | fuel + 1, c :: rest =>
    if c = '{' || c = ',' then
      let ws := rest.takeWhile regexWs
      let r2 := rest.dropWhile regexWs
      let w := r2.takeWhile isWordChar
      let r3 := r2.dropWhile isWordChar
      match w, r3 with
      | _ :: _, ':' :: r4 =>
        (c :: ws) ++ ('"' :: w) ++ ('"' :: ':' :: replQuoteKeys fuel r4)
      | _, _ => c :: replQuoteKeys fuel rest
    else c :: replQuoteKeys fuel rest

/-- Global replace of `/:\s*'([^']*)'/` by `: "$1"` (normalize
single-quoted values). -/
def replSingleQuotes : Nat → List Char → List Char
  | 0, l => l
  | _, [] => []
  | fuel + 1, c :: rest =>
    if c = ':' then
      match rest.dropWhile regexWs with
      | '\'' :: r3 =>
        let content := r3.takeWhile (· ≠ '\'')
        (match r3.dropWhile (· ≠ '\'') with
         | '\'' :: r5 => (':' :: ' ' :: '"' :: content) ++ ('"' :: replSingleQuotes fuel r5)
         | _ => c :: replSingleQuotes fuel rest)
      | _ => c :: replSingleQuotes fuel rest
    else c :: replSingleQuotes fuel rest

/-- Replace `/"\s*$/` by the empty string (drop a trailing quote followed
only by whitespace). -/
def stripTrailingQuote (l : List Char) : List Char :=
  match l.reverse.dropWhile regexWs with
  | '"' :: r => r.reverse
  | _ => l

/-- The shared bracket/quote balancing tail of steps 3 and 4: count
`\x7b`/`\x7d`/`[`/`]`/`"` occurrences (inside string literals as well —
the source counts raw matches), append one `"` when the quote count is odd,
then enough `]` and `\x7d` to equalize the counts. -/
def balanceClosers (l : List Char) : List Char :=
  let openBraces := l.count '{'
  let closeBraces := l.count '}'
  let openBrackets := l.count '['
  let closeBrackets := l.count ']'
  let openQuotes := l.count '"'
  let l1 := if openQuotes % 2 ≠ 0 then l ++ ['"'] else l
  (l1 ++ List.replicate (openBrackets - closeBrackets) ']') ++
    List.replicate (openBraces - closeBraces) '}'

/-- Last index at which the two-character pattern `ab` begins. -/
def lastIndexOfPairAux (a b : Char) : List Char → Nat → Option Nat → Option Nat
  | [], _, acc => acc
  | [_], _, acc => acc
  | c :: d :: rest, i, acc =>
    lastIndexOfPairAux a b (d :: rest) (i + 1) (if c = a ∧ d = b then some i else acc)

def lastIndexOfPair (a b : Char) (l : List Char) : Option Nat :=
  lastIndexOfPairAux a b l 0 none

/-- Substring containment test. -/
def containsSub (pat : List Char) : List Char → Bool
  | [] => (expectPrefixChars pat ([] : List Char)).isSome
  | c :: rest => (expectPrefixChars pat (c :: rest)).isSome || containsSub pat rest

def unterminatedLit : List Char := "Unterminated string".data

/-- The patched text built by step 3 before its parse attempt: take the
outermost span (empty when there is none); truncate at the last `",` only
when that index is positive AND the span itself contains the literal text
"Unterminated string" (the source tests the document text, not a parse
error message); apply the four regex fixes; strip a trailing quote; then
balance quotes/brackets/braces. -/
def fixJsonStep3Text (text : List Char) : List Char :=
  let fixedJson0 := (outermostSpan text).getD []
  let fixedJson1 :=
    match lastIndexOfPair '"' ',' fixedJson0 with
    | some i =>
      if 0 < i ∧ containsSub unterminatedLit fixedJson0 then fixedJson0.take (i + 1)
      else fixedJson0
    | none => fixedJson0
  let f2 := replCommaClose ']' (fixedJson1.length + 1) fixedJson1
  let f3 := replCommaClose '}' (f2.length + 1) f2
  let f4 := replQuoteKeys (f3.length + 1) f3
  let f5 := replSingleQuotes (f4.length + 1) f4
  balanceClosers (stripTrailingQuote f5)

/-- Step 3: syntax patching, then parse. -/
def recoveryStep3 (text : List Char) : Option Json := jsonParse (fixJsonStep3Text text)

def step4Fractions : List Nat := [95, 90, 80, 70, 60, 50, 40, 30]

/-- One progressive-truncation attempt at `pct` percent.  `Math.floor(len *
0.95)` and the `> chunkSize * 0.8` comparison are modelled by exact
rational arithmetic (`len * pct / 100` in `Nat`, `5 * i > 4 * chunkSize`);
the JavaScript doubles 0.95 … 0.3 round these by at most one ulp, and no
statement below depends on an input where that difference changes the
floor. -/
def step4Try (fullJson : List Char) (pct : Nat) : Option Json :=
  let chunkSize := fullJson.length * pct / 100
  let truncated0 := fullJson.take chunkSize
  let lastCompleteField : Option Nat :=
    [lastIndexOfPair '"' ',' truncated0, idxOfLast '}' truncated0,
      idxOfLast ']' truncated0].foldl
      (fun acc o => match acc, o with
        | none, o2 => o2
        | some a, some b => some (max a b)
        | some a, none => some a) none
  let truncated :=
    match lastCompleteField with
    | some i => if 5 * i > 4 * chunkSize then truncated0.take (i + 1) else truncated0
    | none => truncated0
  jsonParse (balanceClosers truncated)

/-- Step 4: progressive truncation over the descending fraction ladder,
returning the first success. -/
def recoveryStep4 (text : List Char) : Option Json :=
  let fullJson := (outermostSpan text).getD []
  if fullJson = [] then none
  else
    step4Fractions.foldl
      (fun acc pct => match acc with
        | some j => some j
        | none => step4Try fullJson pct) none

/-- Full match of /"metadata"\s*:\s*\x7b[^\x7d]*\x7d/ at one position. -/
def matchMetadataSimpleAt (l : List Char) : Option (List Char) :=
  match expectPrefixChars metadataLit l with
  | none => none
  | some r1 =>
    let ws1 := r1.takeWhile regexWs
    match r1.dropWhile regexWs with
    | ':' :: r2 =>
      let ws2 := r2.takeWhile regexWs
      (match r2.dropWhile regexWs with
       | '{' :: r3 =>
         let interior := r3.takeWhile (· ≠ '}')
         (match r3.dropWhile (· ≠ '}') with
          | '}' :: _ =>
            some (metadataLit ++ ws1 ++ (':' :: ws2) ++ ('{' :: interior) ++ ['}'])
          | _ => none)
       | _ => none)
    | _ => none

/-- Leftmost full match of the simple metadata regex of step 5. -/
def metadataSimpleMatch : List Char → Option (List Char)
  | [] => none
  | c :: rest =>
    match matchMetadataSimpleAt (c :: rest) with
    | some m => some m
    | none => metadataSimpleMatch rest

/-- Step 5: when both a metadata region and a hierarchy opening are
present, rebuild `\x7b` ++ `match[0].substring(12)` ++ `\x7d` and parse it
as the metadata of a minimal structure.  (The hierarchy regex here is the
same as the StreamingParser's, so its model is reused.) -/
def recoveryStep5 (text : List Char) : Option Json :=
  match metadataSimpleMatch text, StreamingParser.findHierarchyContent text with
  | some m0, some _ =>
    (match jsonParse ('{' :: (m0.drop 12 ++ ['}'])) with
     | some md =>
       some (Json.obj [("metadata", md), ("hierarchy", Json.arr []),
         ("_parseError", Json.str "Partial parsing - response was truncated"),
         ("_originalLength", Json.num (toString text.length))])
     | none => none)
  | _, _ => none

/-- Step 6: the unconditional placeholder result. -/
def recoveryFallback (text : List Char) : Json :=
  Json.obj [("metadata", Json.obj [
      ("title", Json.str "Document Parsing Failed - Response Truncated"),
      ("jurisdiction", Json.str "Unknown"),
      ("document_type", Json.str "Unknown"),
      ("source", Json.str "Failed Parsing")]),
    ("hierarchy", Json.arr []),
    ("_parseError", Json.str "Failed to parse complete JSON response - likely truncated"),
    ("_originalLength", Json.num (toString text.length)),
    ("_recoveryAttempts", Json.str "All methods failed")]

/-- `parseJSONWithRecovery`: the descending strategy ladder; every parse
failure inside a step is caught, and the fixed placeholder is returned when
all five strategies fail. -/
def parseJSONWithRecovery (text : List Char) : Json :=
  match recoveryStep1 text with
  | some j => j
  | none =>
    match recoveryStep2 text with
    | some j => j
    | none =>
      match recoveryStep3 text with
      | some j => j
      | none =>
        match recoveryStep4 text with
        | some j => j
        | none =>
          match recoveryStep5 text with
          | some j => j
          | none => recoveryFallback text

end documentService

/-! ## Document chunker (`DocumentChunker.ts`) -/

namespace DocumentChunker

structure ChunkingConfig where
  chunkSize : Nat
  chunkOverlap : Nat
deriving Repr, DecidableEq

/-- The constructor's default configuration. -/
def defaultConfig : ChunkingConfig := ⟨8000, 1000⟩

structure ChunkMetadata where
  startChar : Int
  endChar : Int
  totalChunks : Nat
deriving Repr, DecidableEq

structure DocumentChunk where
  content : List Char
  index : Nat
  metadata : ChunkMetadata
deriving Repr, DecidableEq

/-- The offset bookkeeping of `chunkDocument`'s map over the splitter's
output: `startChar` is the running position, `endChar` adds the chunk
length, and the running position then backs off by the configured
overlap. -/
def assignOffsets (total : Nat) (overlap : Nat) :
    Int → Nat → List (List Char) → List DocumentChunk
  | _, _, [] => []
  | pos, i, c :: rest =>
    ⟨c, i, ⟨pos, pos + c.length, total⟩⟩ ::
      assignOffsets total overlap (pos + c.length - overlap) (i + 1) rest

/-- `chunkDocument`.  The underlying LangChain
`RecursiveCharacterTextSplitter.splitText` is an external collaborator and
is passed in abstractly; `none` models it throwing, which `chunkDocument`
catches and rethrows as a chunking error. -/
def chunkDocument (cfg : ChunkingConfig)
    (splitText : List Char → Option (List (List Char)))
    (documentText : List Char) : Except String (List DocumentChunk) :=
  if documentText.length ≤ cfg.chunkSize then
    Except.ok [⟨documentText, 0, ⟨0, documentText.length, 1⟩⟩]
  else
    match splitText documentText with
    | none => Except.error "Failed to chunk document"
    | some chunks => Except.ok (assignOffsets chunks.length cfg.chunkOverlap 0 0 chunks)

/-- `estimateTokenCount`: `Math.ceil(text.length / 4)`. -/
def estimateTokenCount (text : List Char) : Nat := (text.length + 3) / 4

/-- `exceedsTokenLimit` (the source's default ceiling is 30000). -/
def exceedsTokenLimit (text : List Char) (maxTokens : Nat) : Bool :=
  estimateTokenCount text > maxTokens

end DocumentChunker

/-! ## Node merging (`EnhancedStreamingService.ts`) -/

/-- `Reference` of `store/regulationStore.ts`. -/
structure Reference where
  target : String
  text : String
  type : String
deriving Repr, DecidableEq

/-- `HierarchyNode` of `store/regulationStore.ts` (recursive, hence an
inductive with one constructor). -/
inductive HierarchyNode where
  | mk (id : String) (type : String) (number : String) (title : String)
      (text : String) (level : Int) (references : List Reference)
      (children : List HierarchyNode)
deriving Repr

def HierarchyNode.id : HierarchyNode → String
  | .mk i _ _ _ _ _ _ _ => i

def HierarchyNode.type : HierarchyNode → String
  | .mk _ t _ _ _ _ _ _ => t

def HierarchyNode.number : HierarchyNode → String
  | .mk _ _ n _ _ _ _ _ => n

def HierarchyNode.title : HierarchyNode → String
  | .mk _ _ _ t _ _ _ _ => t

def HierarchyNode.text : HierarchyNode → String
  | .mk _ _ _ _ t _ _ _ => t

def HierarchyNode.level : HierarchyNode → Int
  | .mk _ _ _ _ _ l _ _ => l

def HierarchyNode.references : HierarchyNode → List Reference
  | .mk _ _ _ _ _ _ r _ => r

def HierarchyNode.children : HierarchyNode → List HierarchyNode
  | .mk _ _ _ _ _ _ _ c => c

namespace EnhancedStreamingService

mutual

/-- The merged-object construction used (identically) by
`mergeHierarchyNode` and `mergeChildren` on an id hit: spread the existing
node, concatenate texts with one separating space, concatenate the
reference lists, and merge the children recursively. -/
def mergeNode : HierarchyNode → HierarchyNode → HierarchyNode
  | HierarchyNode.mk i t n ti te le re ch,
    HierarchyNode.mk _ _ _ _ te2 _ re2 ch2 =>
    HierarchyNode.mk i t n ti (te ++ " " ++ te2) le (re ++ re2) (mergeChildren ch ch2)

/-- `mergeChildren`: fold each incoming child into the accumulating merged
list (the source's `forEach` over `incoming`, mutating `merged`). -/
def mergeChildren : List HierarchyNode → List HierarchyNode → List HierarchyNode
  | ex, [] => ex
  | ex, c :: rest => mergeChildren (mergeOne ex c) rest

/-- Insert one node into a merged list: replace the first entry with the
same id by the merged object (`findIndex` + assignment), or push it at the
end. -/
def mergeOne : List HierarchyNode → HierarchyNode → List HierarchyNode
  | [], c => [c]
  | e :: rest, c =>
    if e.id = c.id then mergeNode e c :: rest else e :: mergeOne rest c

end

/-- `mergeHierarchyNode`: merge one incoming node into the accumulated
top-level hierarchy (same hit/miss rule as `mergeOne`). -/
def mergeHierarchyNode (mergedHierarchy : List HierarchyNode) (node : HierarchyNode) :
    List HierarchyNode :=
  mergeOne mergedHierarchy node

end EnhancedStreamingService

/-! ## Stream orchestration (`EnhancedStreamingService.streamDocumentParsing`)

The LLM client is an external collaborator: one model stream is a list of
text fragments followed by an optional thrown error (`throwsAfter`), which
covers both a failing stream-open `await` (no fragments, then throw) and a
mid-iteration failure.  Callbacks are modelled as an event list in call
order; they are assumed not to throw (they belong to the consumer
collaborator). -/

namespace EnhancedStreamingService

/-- One model stream: the fragments it delivers, then an optional error. -/
structure ModelStream where
  fragments : List (List Char)
  throwsAfter : Option String
deriving Repr

/-- The placeholder metadata of `finalizeMergedResults`. -/
def processedPlaceholder : Json :=
  Json.obj [("title", Json.str "Processed Document"),
    ("jurisdiction", Json.str "Unknown"),
    ("document_type", Json.str "Document"),
    ("source", Json.str "Streaming Parse")]

structure FinalData where
  metadata : Json
  hierarchy : List HierarchyNode
deriving Repr

/-- Mutable fields of the service instance used by one invocation. -/
structure OrchState where
  parser : StreamingParser.StreamingParseState
  mergedHierarchy : List HierarchyNode
  mergedMetadata : Option Json
  rawStreamBuffer : List Char
deriving Repr

inductive OrchEvent where
  | progress (percent : ℚ) (message : String)
  | chunkEv (pc : StreamingParser.ParsedChunk)
  | chunkComplete (chunkIndex : Nat) (totalChunks : Nat)
  | completeEv (data : FinalData)
  | errorEv (message : String)
deriving Repr

-- Nesting depth of a JSON value (drives the conversion fuel below).
mutual

def Json.depth : Json → Nat
  | Json.null => 0
  | Json.bool _ => 0
  | Json.num _ => 0
  | Json.str _ => 0
  | Json.arr es => 1 + depthList es
  | Json.obj fs => 1 + depthFields fs

def depthList : List Json → Nat
  | [] => 0
  | j :: rest => max (Json.depth j) (depthList rest)

def depthFields : List (String × Json) → Nat
  | [] => 0
  | (_, j) :: rest => max (Json.depth j) (depthFields rest)

end

def getStrField (j : Json) (k : String) : String :=
  match j.getField k with
  | some (Json.str s) => s
  | _ => ""

def getArrField (j : Json) (k : String) : List Json :=
  match j.getField k with
  | some (Json.arr es) => es
  | _ => []

def natOfDigits (ds : List Char) : Nat :=
  ds.foldl (fun a c => a * 10 + (c.toNat - '0'.toNat)) 0

/-- Integer value of a numeric literal's leading integer part. -/
def intOfRaw (raw : String) : Int :=
  match raw.data with
  | '-' :: ds => - (natOfDigits (ds.takeWhile Char.isDigit) : Int)
  | ds => (natOfDigits (ds.takeWhile Char.isDigit) : Int)

def getLevelField (j : Json) : Int :=
  match j.getField "level" with
  | some (Json.num raw) => intOfRaw raw
  | _ => 0

def refOfJson (j : Json) : Reference :=
  ⟨getStrField j "target", getStrField j "text", getStrField j "type"⟩

/-- The source casts the parsed `any` object to `HierarchyNode`; this is
the corresponding typed read.  Validated nodes always have a string `id`
and `type`, a numeric `level`, and array `references`/`children`; missing
`number`/`title`/`text` (JavaScript `undefined`) default to `""` here — no
statement proved below inspects those defaults.  The fuel (the JSON depth)
dominates the children nesting, so parsed nodes convert in full. -/
def nodeOfJsonFuel : Nat → Json → HierarchyNode
  | 0, j =>
    HierarchyNode.mk (getStrField j "id") (getStrField j "type")
      (getStrField j "number") (getStrField j "title") (getStrField j "text")
      (getLevelField j) ((getArrField j "references").map refOfJson) []
  | fuel + 1, j =>
    HierarchyNode.mk (getStrField j "id") (getStrField j "type")
      (getStrField j "number") (getStrField j "title") (getStrField j "text")
      (getLevelField j) ((getArrField j "references").map refOfJson)
      ((getArrField j "children").map (nodeOfJsonFuel fuel))

def nodeOfJson (j : Json) : HierarchyNode := nodeOfJsonFuel (Json.depth j) j

/-- Forwarding in the single-document path: first metadata wins; nodes are
pushed (no id merging in this mode); parser `complete` events only flow to
the consumer. -/
def forwardSingle (st : OrchState) (pc : StreamingParser.ParsedChunk) : OrchState :=
  match pc with
  | .metadata d =>
    (match st.mergedMetadata with
     | none => { st with mergedMetadata := some d }
     | some _ => st)
  | .node d => { st with mergedHierarchy := st.mergedHierarchy ++ [nodeOfJson d] }
  | .complete _ _ => st

/-- Forwarding in the chunked path: first metadata wins; nodes are merged
by id via `mergeHierarchyNode`. -/
def forwardChunked (st : OrchState) (pc : StreamingParser.ParsedChunk) : OrchState :=
  match pc with
  | .metadata d =>
    (match st.mergedMetadata with
     | none => { st with mergedMetadata := some d }
     | some _ => st)
  | .node d => { st with mergedHierarchy := mergeHierarchyNode st.mergedHierarchy (nodeOfJson d) }
  | .complete _ _ => st

def mkFinalData (st : OrchState) : FinalData :=
  ⟨st.mergedMetadata.getD processedPlaceholder, st.mergedHierarchy⟩

/-- `finalizeMergedResults`: two progress notifications, the single
`onComplete`, and the closing progress (the JSON download helper catches
its own errors and emits nothing). -/
def finalizeEvents (st : OrchState) : List OrchEvent :=
  [OrchEvent.progress 95 "Finalizing document structure...",
   OrchEvent.progress 98 "Saving analysis results...",
   OrchEvent.completeEv (mkFinalData st),
   OrchEvent.progress 100 "Analysis complete!"]

/-- One fragment of the single-document loop: append to the raw buffer,
run the shared parser, fold the parsed chunks into the merged state, emit
them on the chunk channel, then the capped progress update. -/
def singleFragmentStep (acc : List OrchEvent × OrchState × Nat) (content : List Char) :
    List OrchEvent × OrchState × Nat :=
  let st := acc.2.1
  let chunkCount := acc.2.2 + 1
  let st1 := { st with rawStreamBuffer := st.rawStreamBuffer ++ content }
  let p := StreamingParser.processChunk st1.parser content 0
  let st2 := p.1.foldl forwardSingle { st1 with parser := p.2 }
  let prog : ℚ := min 90 (15 + 2 * (chunkCount : ℚ))
  (acc.1 ++ p.1.map OrchEvent.chunkEv ++
    [OrchEvent.progress prog ("Processing... (" ++ toString chunkCount ++ " chunks received)")],
   st2, chunkCount)

/-- `processSingleDocument`. -/
def processSingleDocument (st0 : OrchState) (stream : ModelStream) :
    List OrchEvent × Except String OrchState :=
  let start := [OrchEvent.progress 10 "Starting AI analysis...",
    OrchEvent.progress 15 "Connecting to AI model..."]
  let folded := stream.fragments.foldl singleFragmentStep ([], st0, 0)
  match stream.throwsAfter with
  | some msg => (start ++ folded.1, Except.error msg)
  | none => (start ++ folded.1 ++ finalizeEvents folded.2.1, Except.ok folded.2.1)

/-- One fragment of a chunk's loop (fresh parser per chunk, merge-based
forwarding). -/
def chunkFragmentStep
    (acc : List OrchEvent × OrchState × StreamingParser.StreamingParseState)
    (content : List Char) :
    List OrchEvent × OrchState × StreamingParser.StreamingParseState :=
  let p := StreamingParser.processChunk acc.2.2 content 0
  let st2 := p.1.foldl forwardChunked acc.2.1
  (acc.1 ++ p.1.map OrchEvent.chunkEv, st2, p.2)

/-- `processChunk` of the service (one chunk's model stream, with a fresh
parser instance). -/
def processOneChunk (st : OrchState) (stream : ModelStream) :
    List OrchEvent × Except String OrchState :=
  let folded := stream.fragments.foldl chunkFragmentStep ([], st, StreamingParser.initialState)
  match stream.throwsAfter with
  | some msg => (folded.1, Except.error msg)
  | none => (folded.1, Except.ok folded.2.1)

/-- The sequential chunk loop of `processLargeDocument`: a progress event,
the chunk's stream, then the `chunk_complete` notification; an exception
from the stream aborts the loop. -/
def processChunksLoop (streams : Nat → ModelStream) (total : Nat) :
    OrchState → List DocumentChunker.DocumentChunk →
    List OrchEvent × Except String OrchState
  | st, [] => ([], Except.ok st)
  | st, ch :: rest =>
    let pre := [OrchEvent.progress (15 + ((ch.index : ℚ) / (total : ℚ)) * 75)
      ("Processing chunk " ++ toString (ch.index + 1) ++ " of " ++ toString total ++ "...")]
    let r := processOneChunk st (streams ch.index)
    match r.2 with
    | Except.error e => (pre ++ r.1, Except.error e)
    | Except.ok st2 =>
      let rec2 := processChunksLoop streams total st2 rest
      (pre ++ r.1 ++ [OrchEvent.chunkComplete ch.index total] ++ rec2.1, rec2.2)

/-- `processLargeDocument`. -/
def processLargeDocument (st0 : OrchState)
    (splitText : List Char → Option (List (List Char)))
    (chunkStreams : Nat → ModelStream) (documentText : List Char) :
    List OrchEvent × Except String OrchState :=
  let evs0 := [OrchEvent.progress 10 "Splitting large document into chunks..."]
  match DocumentChunker.chunkDocument DocumentChunker.defaultConfig splitText documentText with
  | Except.error e => (evs0, Except.error e)
  | Except.ok chunks =>
    let evs1 := evs0 ++ [OrchEvent.progress 15
      ("Processing " ++ toString chunks.length ++ " chunks...")]
    let r := processChunksLoop chunkStreams chunks.length st0 chunks
    match r.2 with
    | Except.error e => (evs1 ++ r.1, Except.error e)
    | Except.ok st2 => (evs1 ++ r.1 ++ finalizeEvents st2, Except.ok st2)

/-- `streamDocumentParsing`: reset all state, pick the mode by the token
estimate, and surface any thrown error as the single `onError` call. -/
def streamDocumentParsing (documentText : List Char) (stream : ModelStream)
    (splitText : List Char → Option (List (List Char)))
    (chunkStreams : Nat → ModelStream) : List OrchEvent :=
  let st0 : OrchState :=
    ⟨StreamingParser.resetState StreamingParser.initialState, [], none, []⟩
  let evs0 := [OrchEvent.progress 5 "Analyzing document size..."]
  let r :=
    if DocumentChunker.exceedsTokenLimit documentText 30000 then
      processLargeDocument st0 splitText chunkStreams documentText
    else processSingleDocument st0 stream
  match r.2 with
  | Except.ok _ => evs0 ++ r.1
  | Except.error e => evs0 ++ r.1 ++ [OrchEvent.errorEv e]

/-- The two terminal callbacks (`onComplete` / `onError`); parser-level
`complete`/`error` records forwarded through `onChunk` are a different
channel and are not terminal. -/
def isTerminalEvent : OrchEvent → Bool
  | OrchEvent.completeEv _ => true
  | OrchEvent.errorEv _ => true
  | _ => false

/-- Number of terminal events (`onComplete` or `onError` calls) in an
event list. -/
def tevCount (evs : List OrchEvent) : Nat := (evs.filter isTerminalEvent).length

end EnhancedStreamingService

/-! ## Event observers -/

namespace StreamingParser

def isMetadataEvent : ParsedChunk → Bool
  | ParsedChunk.metadata _ => true
  | _ => false

def isNodeEvent : ParsedChunk → Bool
  | ParsedChunk.node _ => true
  | _ => false

/-- The data payloads of the `node` events, in emission order. -/
def nodeDatas (evs : List ParsedChunk) : List Json :=
  evs.filterMap fun e =>
    match e with
    | ParsedChunk.node d => some d
    | _ => none

/-- The full candidate list of a buffer: every complete, shape-valid
object after the hierarchy opening. -/
def hierarchyCandidates (l : List Char) : List Json :=
  match findHierarchyContent l with
  | none => []
  | some content => extractCompleteObjects content

/-- Number of `metadata` events in an event list. -/
def mevCount (evs : List ParsedChunk) : Nat := (evs.filter isMetadataEvent).length

/-- How many further `metadata` events the state still allows: one before
`parsedMetadata` is set, none afterwards. -/
def metaCapacity (st : StreamingParseState) : Nat :=
  match st.parsedMetadata with
  | none => 1
  | some _ => 0

/-- Characters that keep a serialized metadata field inert for both the
regex capture and the JSON string grammar: printable, and none of quote,
backslash, or braces. -/
def plainChar (c : Char) : Bool :=
  decide (c ≠ '"' ∧ c ≠ '\\' ∧ c ≠ '{' ∧ c ≠ '}' ∧ 32 ≤ c.toNat)

/-- One serialized string-valued field `"k":"v"`. -/
def serializeField (k v : List Char) : List Char :=
  '"' :: (k ++ ('"' :: ':' :: '"' :: (v ++ ['"'])))

/-- Comma-separated serialized fields. -/
def serializeFields : List (List Char × List Char) → List Char
  | [] => []
  | [(k, v)] => serializeField k v
  | (k, v) :: rest => serializeField k v ++ (',' :: serializeFields rest)

/-- A serialized flat string-valued object. -/
def serializeFlatObj (pairs : List (List Char × List Char)) : List Char :=
  '{' :: (serializeFields pairs ++ ['}'])

/-- A buffer that opens with a complete flat `"metadata"` object followed
by arbitrary further text. -/
def mkMetadataBuffer (pairs : List (List Char × List Char)) (rest : List Char) : List Char :=
  '{' :: (metadataLit ++ (':' :: (serializeFlatObj pairs ++ rest)))

/-- The JSON value of a serialized flat string-valued object. -/
def metaJson (pairs : List (List Char × List Char)) : Json :=
  Json.obj (pairs.map fun p => (String.mk p.1, Json.str (String.mk p.2)))

/-- What it means for `(a, b, txt)` to be a well-formed candidate span of
the buffer `p`: `txt` is exactly the text from the opening brace at `a`
(where the scanner is at depth 0, outside a string, not escaped, and the
brace takes the depth to 1) through the close brace at `b` that first
returns the depth to 0, both inclusive. -/
def GoodSpan (p : List Char) (a b : Nat) (txt : List Char) : Prop :=
  a ≤ b ∧ b < p.length ∧
  txt = (p.drop a).take (b + 1 - a) ∧
  p.get? a = some '{' ∧ p.get? b = some '}' ∧
  (scanPrefix p a).braceCount = 0 ∧ (scanPrefix p a).inString = false ∧
  (scanPrefix p a).escapeNext = false ∧
  (scanPrefix p (a + 1)).braceCount = 1 ∧
  (scanPrefix p (b + 1)).braceCount = 0 ∧
  (∀ k, a < k → k ≤ b → 1 ≤ (scanPrefix p k).braceCount)

/-- Invariant of the in-object portion of the scanner state (its
`objectStart` and `currentObject` fields) after processing the buffer
`p`. -/
def InObjInv (p : List Char) (start : Option Nat) (cur : List Char) : Prop :=
  match start with
  | none => True
  | some a =>
    a < p.length ∧ p.get? a = some '{' ∧
    (scanPrefix p a).braceCount = 0 ∧ (scanPrefix p a).inString = false ∧
    (scanPrefix p a).escapeNext = false ∧
    (scanPrefix p (a + 1)).braceCount = 1 ∧
    cur = p.drop a ∧
    (∀ k, a < k → k ≤ p.length → 1 ≤ (scanPrefix p k).braceCount)

/-- Full invariant of the `extractCompleteObjects` loop state after
processing the buffer `p`. -/
def ScanInv (p : List Char) (st : ObjScanState) : Prop :=
  st.idx = p.length ∧ st.ctrl = scanPrefix p p.length ∧
  (∀ a b txt, (a, b, txt) ∈ st.found → GoodSpan p a b txt) ∧
  InObjInv p st.objectStart st.currentObject

end StreamingParser

/-! ## Concrete inputs used by the claim theorems below -/

def c5refA : Reference := ⟨"sec9", "under section 9", "internal"⟩

def c5refB : Reference := ⟨"external", "another Act", "external"⟩

def c5refC : Reference := ⟨"sec9", "under section 9", "internal"⟩

def c5nodeA : HierarchyNode := HierarchyNode.mk "sec1" "section" "1" "T" "A" 2 [c5refA] []

def c5nodeB : HierarchyNode := HierarchyNode.mk "sec1" "section" "1b" "U" "B" 3 [c5refB, c5refC] []

def jsonNoMetaInput : List Char := "\x7b\"a\":1\x7d".data

def step3CexInput : List Char := "\x7b\"a\": \"x\", \"b\": \"uh\x7d".data

def c4Input : List Char := "\x7b\"a\":\"x\x7d\"\x7d".data

def c3DupObjText : List Char :=
  "\x7b\"id\":\"a\",\"type\":\"x\",\"level\":1,\"references\":[],\"children\":[]\x7d".data

def c3DupInput : List Char :=
  "\x7b\"hierarchy\": [".data ++ c3DupObjText ++ ",".data ++ c3DupObjText ++
    "]\x7d".data

def c3DupNode : Json :=
  Json.obj [("id", Json.str "a"), ("type", Json.str "x"),
    ("level", Json.num "1"), ("references", Json.arr []),
    ("children", Json.arr [])]

def metadataBraceInput : List Char :=
  ("\x7b\"metadata\": \x7b\"title\": \"a\x7db\", \"jurisdiction\": \"J\"," ++
   " \"document_type\": \"D\", \"source\": \"S\"\x7d, \"hierarchy\": []\x7d").data

/-! ## Sanity evaluations of the embedding -/

example : jsonParse "\x7b\"a\":1\x7d".data = some (Json.obj [("a", Json.num "1")]) := by rfl

example : jsonParse "\x7b\"a\": \"x\x7dy\", \"b\": [1, true]\x7d".data =
    some (Json.obj [("a", Json.str "x\x7dy"), ("b", Json.arr [Json.num "1", Json.bool true])]) := by
  rfl

example : jsonParse "\x7b\"a\": \"x".data = none := by rfl

example : jsonParse "\x7b\"a\":1\x7d\x7d".data = none := by rfl

-- Scenario 1 of the spec: a complete response in one chunk yields
-- Metadata, Node, Complete — in that order.
example :
    ((StreamingParser.runChunks StreamingParser.initialState
      ["\x7b\"metadata\":\x7b\"title\":\"T\",\"jurisdiction\":\"J\",\"document_type\":\"D\",\"source\":\"S\"\x7d,\"hierarchy\":[\x7b\"id\":\"p1\",\"type\":\"part\",\"number\":\"I\",\"title\":\"\",\"text\":\"\",\"level\":1,\"references\":[],\"children\":[]\x7d]\x7d".data]).1.map
      (fun e => match e with
        | .metadata _ => (0 : Nat)
        | .node _ => 1
        | .complete _ _ => 2)) = [0, 1, 2] := by rfl

/-! ## Shared lemmas about the merge -/

theorem mergeOne_miss (ex : List HierarchyNode) (d : HierarchyNode)
    (h : ∀ x ∈ ex, x.id ≠ d.id) :
    EnhancedStreamingService.mergeOne ex d = ex ++ [d] := by
  induction ex with
  | nil => simp [EnhancedStreamingService.mergeOne]
  | cons e rest ih =>
    have he : ¬ (e.id = d.id) := h e (by simp)
    have ih2 := ih (fun x hx => h x (by simp [hx]))
    simp [EnhancedStreamingService.mergeOne, he, ih2]

theorem mergeOne_hit (pre post : List HierarchyNode) (a b : HierarchyNode)
    (hpre : ∀ x ∈ pre, x.id ≠ b.id) (hid : a.id = b.id) :
    EnhancedStreamingService.mergeOne (pre ++ a :: post) b =
      pre ++ EnhancedStreamingService.mergeNode a b :: post := by
  induction pre with
  | nil => simp [EnhancedStreamingService.mergeOne, hid]
  | cons e rest ih =>
    have he : ¬ (e.id = b.id) := hpre e (by simp)
    have ih2 := ih (fun x hx => hpre x (by simp [hx]))
    simp [EnhancedStreamingService.mergeOne, he, ih2]

theorem mergeNode_text (a b : HierarchyNode) :
    (EnhancedStreamingService.mergeNode a b).text = a.text ++ " " ++ b.text := by
  cases a; cases b
  simp [EnhancedStreamingService.mergeNode, HierarchyNode.text]

theorem mergeNode_references (a b : HierarchyNode) :
    (EnhancedStreamingService.mergeNode a b).references = a.references ++ b.references := by
  cases a; cases b
  simp [EnhancedStreamingService.mergeNode, HierarchyNode.references]

theorem mergeNode_children (a b : HierarchyNode) :
    (EnhancedStreamingService.mergeNode a b).children =
      EnhancedStreamingService.mergeChildren a.children b.children := by
  cases a; cases b
  simp [EnhancedStreamingService.mergeNode, HierarchyNode.children]

theorem mergeChildren_single (ex : List HierarchyNode) (d : HierarchyNode) :
    EnhancedStreamingService.mergeChildren ex [d] = EnhancedStreamingService.mergeOne ex d := by
  simp [EnhancedStreamingService.mergeChildren]

/-! ## Claim C5 -/

/-- Claim C5: when a node with an already-present id is merged, the merged
entry concatenates the texts with one separating space, concatenates the
reference lists (length = sum, no de-duplication), and merges children
recursively by the same id rule, appending child ids not already
present. -/
theorem mergeHierarchyNode_same_id (pre post : List HierarchyNode) (a b : HierarchyNode)
    (hpre : ∀ x ∈ pre, x.id ≠ b.id) (hid : a.id = b.id) :
    EnhancedStreamingService.mergeHierarchyNode (pre ++ a :: post) b =
        pre ++ EnhancedStreamingService.mergeNode a b :: post ∧
    (EnhancedStreamingService.mergeNode a b).text = a.text ++ " " ++ b.text ∧
    (EnhancedStreamingService.mergeNode a b).references = a.references ++ b.references ∧
    (EnhancedStreamingService.mergeNode a b).references.length =
        a.references.length + b.references.length ∧
    (EnhancedStreamingService.mergeNode a b).children =
        EnhancedStreamingService.mergeChildren a.children b.children ∧
    (∀ ex d, (∀ x ∈ ex, x.id ≠ d.id) →
        EnhancedStreamingService.mergeChildren ex [d] = ex ++ [d]) ∧
    (∀ pre2 post2 c d, (∀ x ∈ pre2, x.id ≠ d.id) → c.id = d.id →
        EnhancedStreamingService.mergeChildren (pre2 ++ c :: post2) [d] =
          pre2 ++ EnhancedStreamingService.mergeNode c d :: post2) := by
  refine ⟨mergeOne_hit pre post a b hpre hid, mergeNode_text a b,
    mergeNode_references a b, ?_, mergeNode_children a b, ?_, ?_⟩
  · rw [mergeNode_references a b, List.length_append]
  · intro ex d h
    rw [mergeChildren_single, mergeOne_miss ex d h]
  · intro pre2 post2 c d h hcd
    rw [mergeChildren_single, mergeOne_hit pre2 post2 c d h hcd]

/-- Witness for C5 at two concrete single-node results with id `sec1`. -/
theorem mergeHierarchyNode_same_id_witness :
    EnhancedStreamingService.mergeHierarchyNode ([] ++ c5nodeA :: []) c5nodeB =
        [] ++ EnhancedStreamingService.mergeNode c5nodeA c5nodeB :: [] ∧
    (EnhancedStreamingService.mergeNode c5nodeA c5nodeB).text =
        c5nodeA.text ++ " " ++ c5nodeB.text ∧
    (EnhancedStreamingService.mergeNode c5nodeA c5nodeB).references =
        c5nodeA.references ++ c5nodeB.references ∧
    (EnhancedStreamingService.mergeNode c5nodeA c5nodeB).references.length =
        c5nodeA.references.length + c5nodeB.references.length ∧
    (EnhancedStreamingService.mergeNode c5nodeA c5nodeB).children =
        EnhancedStreamingService.mergeChildren c5nodeA.children c5nodeB.children ∧
    (∀ ex d, (∀ x ∈ ex, x.id ≠ d.id) →
        EnhancedStreamingService.mergeChildren ex [d] = ex ++ [d]) ∧
    (∀ pre2 post2 c d, (∀ x ∈ pre2, x.id ≠ d.id) → c.id = d.id →
        EnhancedStreamingService.mergeChildren (pre2 ++ c :: post2) [d] =
          pre2 ++ EnhancedStreamingService.mergeNode c d :: post2) :=
  mergeHierarchyNode_same_id [] [] c5nodeA c5nodeB (by simp) rfl

/-! ## Claim C9 -/

/-- Claim C9: the merged object construction (used by both the top-level
merge and the recursive children merge) keeps the existing node's `id`,
`type`, `number`, `title` and `level`; the incoming node's values for
those fields are discarded. -/
theorem mergeNode_frame (a b : HierarchyNode) (hid : a.id = b.id) :
    (EnhancedStreamingService.mergeNode a b).id = a.id ∧
    (EnhancedStreamingService.mergeNode a b).type = a.type ∧
    (EnhancedStreamingService.mergeNode a b).number = a.number ∧
    (EnhancedStreamingService.mergeNode a b).title = a.title ∧
    (EnhancedStreamingService.mergeNode a b).level = a.level := by
  cases a; cases b
  refine ⟨?_, ?_, ?_, ?_, ?_⟩ <;>
    simp [EnhancedStreamingService.mergeNode, HierarchyNode.id, HierarchyNode.type,
      HierarchyNode.number, HierarchyNode.title, HierarchyNode.level]

/-- Witness for C9 at concrete nodes whose non-merged fields differ. -/
theorem mergeNode_frame_witness :
    (EnhancedStreamingService.mergeNode c5nodeA c5nodeB).id = c5nodeA.id ∧
    (EnhancedStreamingService.mergeNode c5nodeA c5nodeB).type = c5nodeA.type ∧
    (EnhancedStreamingService.mergeNode c5nodeA c5nodeB).number = c5nodeA.number ∧
    (EnhancedStreamingService.mergeNode c5nodeA c5nodeB).title = c5nodeA.title ∧
    (EnhancedStreamingService.mergeNode c5nodeA c5nodeB).level = c5nodeA.level :=
  mergeNode_frame c5nodeA c5nodeB rfl

/-! ## Claim C8 -/

/-- Claim C8: a document below the configured chunk size yields exactly one
chunk spanning the whole text, with index 0, startChar 0, endChar the text
length, and totalChunks 1. -/
theorem chunkDocument_small_single (cfg : DocumentChunker.ChunkingConfig)
    (splitText : List Char → Option (List (List Char))) (text : List Char)
    (h : text.length < cfg.chunkSize) :
    DocumentChunker.chunkDocument cfg splitText text =
      Except.ok [⟨text, 0, ⟨0, (text.length : Int), 1⟩⟩] := by
  unfold DocumentChunker.chunkDocument
  rw [if_pos (Nat.le_of_lt h)]

/-- Witness for C8 at a three-character document and the default
configuration. -/
theorem chunkDocument_small_single_witness :
    "abc".data.length < DocumentChunker.defaultConfig.chunkSize ∧
    DocumentChunker.chunkDocument DocumentChunker.defaultConfig (fun _ => none) "abc".data =
      Except.ok [⟨"abc".data, 0, ⟨0, ("abc".data.length : Int), 1⟩⟩] :=
  ⟨by decide, chunkDocument_small_single DocumentChunker.defaultConfig _ _ (by decide)⟩

/-! ## Claim C10 -/

/-- Claim C10: `resetState` installs exactly the constructor's fresh state,
so feeding any fragment sequence after a reset produces the same events
and final state as a freshly constructed parser. -/
theorem resetState_fresh_equiv (st : StreamingParser.StreamingParseState)
    (frags : List (List Char)) :
    StreamingParser.runChunks (StreamingParser.resetState st) frags =
      StreamingParser.runChunks StreamingParser.initialState frags := rfl

/-! ## Claim C1 -/

/-- Claim C1 counterexample: on the valid JSON input `\x7b"a":1\x7d`, the
first strategy returns the parsed object as-is, which has no `metadata`
(or `hierarchy`) field, so the result is not always a well-formed
`(metadata, hierarchy)` object. -/
theorem parseJSONWithRecovery_shape_cex :
    documentService.parseJSONWithRecovery jsonNoMetaInput = Json.obj [("a", Json.num "1")] ∧
    (documentService.parseJSONWithRecovery jsonNoMetaInput).hasField "metadata" = false ∧
    (documentService.parseJSONWithRecovery jsonNoMetaInput).hasField "hierarchy" = false := by
  exact ⟨rfl, rfl, rfl⟩

/-- Claim C1 (amended): the recovery parser is total (never throws — every
strategy's parse failure is caught), and when all five repair strategies
fail it returns the fixed placeholder, which does carry `metadata` and
`hierarchy` fields. -/
theorem parseJSONWithRecovery_total_fallback (text : List Char)
    (h1 : documentService.recoveryStep1 text = none)
    (h2 : documentService.recoveryStep2 text = none)
    (h3 : documentService.recoveryStep3 text = none)
    (h4 : documentService.recoveryStep4 text = none)
    (h5 : documentService.recoveryStep5 text = none) :
    documentService.parseJSONWithRecovery text = documentService.recoveryFallback text ∧
    (documentService.recoveryFallback text).hasField "metadata" = true ∧
    (documentService.recoveryFallback text).hasField "hierarchy" = true := by
  refine ⟨?_, rfl, rfl⟩
  unfold documentService.parseJSONWithRecovery
  rw [h1, h2, h3, h4, h5]

/-- Witness for C1 (amended) at the braceless input "hello", on which all
five strategies fail. -/
theorem parseJSONWithRecovery_total_fallback_witness :
    documentService.parseJSONWithRecovery "hello".data =
        documentService.recoveryFallback "hello".data ∧
    (documentService.recoveryFallback "hello".data).hasField "metadata" = true ∧
    (documentService.recoveryFallback "hello".data).hasField "hierarchy" = true :=
  parseJSONWithRecovery_total_fallback "hello".data rfl rfl rfl rfl rfl

/-! ## Claim C7 -/

/-- Claim C7: the step-3 truncation at the last `",` is gated on the
condition `fixedJson.includes('Unterminated string')` — a check against
the document text, not against a parse error — so on this outermost span
with an odd number of quotes and a `",` boundary at index 8, no truncation
happens: the patch only appends a quote (the brace inside the string value
makes the counts balanced) and the parse fails, whereas the truncating
behaviour the claim describes would have produced the parseable
`\x7b"a": "x"\x7d`. -/
theorem fixJsonStep3_gate_cex :
    documentService.outermostSpan step3CexInput = some step3CexInput ∧
    documentService.containsSub documentService.unterminatedLit step3CexInput = false ∧
    documentService.lastIndexOfPair '"' ',' step3CexInput = some 8 ∧
    documentService.fixJsonStep3Text step3CexInput = step3CexInput ++ ['"'] ∧
    documentService.recoveryStep3 step3CexInput = none ∧
    jsonParse (documentService.balanceClosers (step3CexInput.take 9)) =
      some (Json.obj [("a", Json.str "x")]) := by
  exact ⟨rfl, rfl, rfl, rfl, rfl, rfl⟩

/-! ## Shared lemmas about the JSON parser and the regex models -/

theorem expectPrefixChars_self_append (p l : List Char) :
    expectPrefixChars p (p ++ l) = some l := by
  induction p with
  | nil => rfl
  | cons c cs ih => simp [expectPrefixChars, ih]

theorem dropRegexWs_cons_of_not (c : Char) (l : List Char) (h : regexWs c = false) :
    dropRegexWs (c :: l) = c :: l := by
  simp [dropRegexWs, List.dropWhile_cons, h]

theorem dropJsonWs_cons_of_not (c : Char) (l : List Char) (h : jsonWs c = false) :
    dropJsonWs (c :: l) = c :: l := by
  simp [dropJsonWs, List.dropWhile_cons, h]

theorem takeThroughCloseBrace_no_brace (mid tail : List Char)
    (h : ∀ c ∈ mid, ¬ c = '}') :
    StreamingParser.takeThroughCloseBrace (mid ++ '}' :: tail) = some (mid ++ ['}']) := by
  induction mid with
  | nil => simp [StreamingParser.takeThroughCloseBrace]
  | cons c cs ih =>
    have hc := h c (by simp)
    have ih2 := ih (fun x hx => h x (by simp [hx]))
    simp [StreamingParser.takeThroughCloseBrace, hc, ih2]

theorem plainChar_spec (c : Char) (h : StreamingParser.plainChar c = true) :
    ¬ c = '"' ∧ ¬ c = '\\' ∧ ¬ c = '{' ∧ ¬ c = '}' ∧ 32 ≤ c.toNat := by
  simpa [StreamingParser.plainChar] using h

theorem parseStrBody_plain (v : List Char) : ∀ (fuel : Nat) (rest : List Char),
    (∀ c ∈ v, StreamingParser.plainChar c = true) → v.length + 1 ≤ fuel →
    parseStrBody fuel (v ++ '"' :: rest) = some (v, rest) := by
  induction v with
  | nil =>
    intro fuel rest _ hf
    obtain ⟨f, rfl⟩ : ∃ f, fuel = f + 1 := ⟨fuel - 1, by omega⟩
    simp [parseStrBody]
  | cons c cs ih =>
    intro fuel rest h hf
    obtain ⟨f, rfl⟩ : ∃ f, fuel = f + 1 := ⟨fuel - 1, by omega⟩
    obtain ⟨h1, h2, _, _, h5⟩ := plainChar_spec c (h c (by simp))
    have h3 : ¬ c.toNat < 32 := by omega
    have ih2 := ih f rest (fun x hx => h x (by simp [hx])) (by simp at hf; omega)
    simp [parseStrBody, h1, h2, h3, ih2]

theorem parseStrBody_plain_len (v rest : List Char)
    (h : ∀ c ∈ v, StreamingParser.plainChar c = true) :
    parseStrBody (v ++ '"' :: rest).length (v ++ '"' :: rest) = some (v, rest) :=
  parseStrBody_plain v (v ++ '"' :: rest).length rest h (by simp)

theorem serializeField_no_brace (k v : List Char)
    (hk : ∀ c ∈ k, StreamingParser.plainChar c = true)
    (hv : ∀ c ∈ v, StreamingParser.plainChar c = true) :
    ∀ c ∈ StreamingParser.serializeField k v, ¬ c = '}' := by
  intro c hc
  have hcases : c = '"' ∨ c = ':' ∨ c ∈ k ∨ c ∈ v := by
    simp [StreamingParser.serializeField] at hc
    tauto
  rcases hcases with rfl | rfl | h | h
  · decide
  · decide
  · exact (plainChar_spec c (hk c h)).2.2.2.1
  · exact (plainChar_spec c (hv c h)).2.2.2.1

theorem serializeFields_no_brace (pairs : List (List Char × List Char))
    (hp : ∀ p ∈ pairs, (∀ c ∈ p.1, StreamingParser.plainChar c = true) ∧
        (∀ c ∈ p.2, StreamingParser.plainChar c = true)) :
    ∀ c ∈ StreamingParser.serializeFields pairs, ¬ c = '}' := by
  induction pairs with
  | nil => simp [StreamingParser.serializeFields]
  | cons kv rest ih =>
    obtain ⟨hk, hv⟩ := hp kv (by simp)
    cases rest with
    | nil =>
      intro c hc
      exact serializeField_no_brace kv.1 kv.2 hk hv c hc
    | cons r rs =>
      intro c hc
      rw [show StreamingParser.serializeFields (kv :: r :: rs)
          = StreamingParser.serializeField kv.1 kv.2 ++
            (',' :: StreamingParser.serializeFields (r :: rs)) from rfl] at hc
      rcases List.mem_append.1 hc with hc1 | hc2
      · exact serializeField_no_brace kv.1 kv.2 hk hv c hc1
      · rcases List.mem_cons.1 hc2 with rfl | hc3
        · decide
        · exact ih (fun p hp2 => hp p (by simp [hp2])) c hc3

/-! ## Claim C2 -/

set_option maxHeartbeats 2000000 in
/-- Claim C2 counterexample: this buffer contains a syntactically complete
top-level metadata object (the whole buffer parses, with the metadata
object's `title` string containing a close brace), yet `extractMetadata`
returns nothing — its regex capture stops at the first close brace, inside
the string — and `processChunk` on a fresh parser emits no Metadata
event. -/
theorem extractMetadata_brace_cex :
    (jsonParse metadataBraceInput).isSome = true ∧
    (jsonParse metadataBraceInput).bind (fun j => j.getField "metadata") =
      some (Json.obj [("title", Json.str "a\x7db"), ("jurisdiction", Json.str "J"),
        ("document_type", Json.str "D"), ("source", Json.str "S")]) ∧
    StreamingParser.extractMetadata metadataBraceInput = none ∧
    ((StreamingParser.processChunk StreamingParser.initialState metadataBraceInput 0).1.filter
      StreamingParser.isMetadataEvent) = [] := by
  exact ⟨rfl, rfl, rfl, rfl⟩

theorem metadataCapture_cons_some (c : Char) (cs cap : List Char)
    (h : StreamingParser.matchMetadataAt (c :: cs) = some cap) :
    StreamingParser.metadataCapture (c :: cs) = some cap := by
  simp [StreamingParser.metadataCapture, h]

theorem metadataCapture_cons_step (c : Char) (cs : List Char)
    (h : StreamingParser.matchMetadataAt (c :: cs) = none) :
    StreamingParser.metadataCapture (c :: cs) = StreamingParser.metadataCapture cs := by
  simp [StreamingParser.metadataCapture, h]

theorem metadataCapture_mkBuffer (pairs : List (List Char × List Char)) (rest : List Char)
    (hp : ∀ p ∈ pairs, (∀ c ∈ p.1, StreamingParser.plainChar c = true) ∧
        (∀ c ∈ p.2, StreamingParser.plainChar c = true)) :
    StreamingParser.metadataCapture (StreamingParser.mkMetadataBuffer pairs rest) =
      some (StreamingParser.serializeFlatObj pairs) := by
  have htake := takeThroughCloseBrace_no_brace (StreamingParser.serializeFields pairs) rest
    (serializeFields_no_brace pairs hp)
  have hmatch : StreamingParser.matchMetadataAt
      ('"' :: (['m', 'e', 't', 'a', 'd', 'a', 't', 'a', '"'] ++
        (':' :: ('{' :: (StreamingParser.serializeFields pairs ++ ('}' :: rest))))))
      = some (StreamingParser.serializeFlatObj pairs) := by
    rw [show StreamingParser.matchMetadataAt
        ('"' :: (['m', 'e', 't', 'a', 'd', 'a', 't', 'a', '"'] ++
          (':' :: ('{' :: (StreamingParser.serializeFields pairs ++ ('}' :: rest))))))
        = (match StreamingParser.takeThroughCloseBrace
            (StreamingParser.serializeFields pairs ++ ('}' :: rest)) with
          | some body => some ('{' :: body)
          | none => none) from rfl]
    rw [htake]
    simp [StreamingParser.serializeFlatObj]
  have hbuf : StreamingParser.mkMetadataBuffer pairs rest
      = '{' :: ('"' :: (['m', 'e', 't', 'a', 'd', 'a', 't', 'a', '"'] ++
        (':' :: ('{' :: (StreamingParser.serializeFields pairs ++ ('}' :: rest)))))) := by
    simp [StreamingParser.mkMetadataBuffer, StreamingParser.serializeFlatObj, metadataLit]
  rw [hbuf]
  rw [metadataCapture_cons_step '{' _ (by rfl)]
  rw [metadataCapture_cons_some '"' _ _ hmatch]

theorem parseValue_succ (fuel : Nat) (l : List Char) :
    parseValue (fuel + 1) l =
      match dropJsonWs l with
      | [] => none
      | '{' :: rest => parseObjBody fuel rest
      | '[' :: rest => parseArrBody fuel rest
      | '"' :: rest =>
        (parseStrBody rest.length rest).map (fun p => (Json.str (String.mk p.1), p.2))
      | 't' :: 'r' :: 'u' :: 'e' :: rest => some (Json.bool true, rest)
      | 'f' :: 'a' :: 'l' :: 's' :: 'e' :: rest => some (Json.bool false, rest)
      | 'n' :: 'u' :: 'l' :: 'l' :: rest => some (Json.null, rest)
      | l2 => (parseNumLit l2).map (fun p => (Json.num (String.mk p.1), p.2)) := rfl

theorem parseObjBody_succ (fuel : Nat) (l : List Char) :
    parseObjBody (fuel + 1) l =
      match dropJsonWs l with
      | '}' :: rest => some (Json.obj [], rest)
      | _ => parseObjFields fuel l [] := rfl

theorem parseObjFields_succ (fuel : Nat) (l : List Char) (acc : List (String × Json)) :
    parseObjFields (fuel + 1) l acc =
      match dropJsonWs l with
      | '"' :: rest =>
        (match parseStrBody rest.length rest with
         | none => none
         | some (key, r1) =>
           match dropJsonWs r1 with
           | ':' :: r2 =>
             (match parseValue fuel r2 with
              | none => none
              | some (v, r3) =>
                match dropJsonWs r3 with
                | ',' :: r4 => parseObjFields fuel r4 (acc ++ [(String.mk key, v)])
                | '}' :: r4 => some (Json.obj (acc ++ [(String.mk key, v)]), r4)
                | _ => none)
           | _ => none)
      | _ => none := rfl

theorem parseValue_string (fuel : Nat) (l v rest : List Char)
    (hl : dropJsonWs l = '"' :: (v ++ '"' :: rest))
    (hv : ∀ c ∈ v, StreamingParser.plainChar c = true) :
    parseValue (fuel + 1) l = some (Json.str (String.mk v), rest) := by
  rw [parseValue_succ, hl]
  change (parseStrBody (v ++ '"' :: rest).length (v ++ '"' :: rest)).map
      (fun p => (Json.str (String.mk p.1), p.2)) = _
  rw [parseStrBody_plain_len v rest hv]
  rfl

theorem parseValue_objBody (fuel : Nat) (l rest : List Char)
    (hl : dropJsonWs l = '{' :: rest) :
    parseValue (fuel + 1) l = parseObjBody fuel rest := by
  rw [parseValue_succ, hl]
  rfl

theorem parseObjBody_empty (fuel : Nat) (l rest : List Char)
    (hl : dropJsonWs l = '}' :: rest) :
    parseObjBody (fuel + 1) l = some (Json.obj [], rest) := by
  rw [parseObjBody_succ, hl]
  rfl

theorem parseObjBody_quote (fuel : Nat) (l rest : List Char)
    (hl : dropJsonWs l = '"' :: rest) :
    parseObjBody (fuel + 1) l = parseObjFields fuel l [] := by
  rw [parseObjBody_succ, hl]
  rfl

theorem parseObjFields_serialized (pairs : List (List Char × List Char)) :
    ∀ (fuel : Nat) (acc : List (String × Json)) (tail : List Char),
    pairs ≠ [] →
    (∀ p ∈ pairs, (∀ c ∈ p.1, StreamingParser.plainChar c = true) ∧
        (∀ c ∈ p.2, StreamingParser.plainChar c = true)) →
    pairs.length + 1 ≤ fuel →
    parseObjFields fuel (StreamingParser.serializeFields pairs ++ '}' :: tail) acc =
      some (Json.obj (acc ++ pairs.map fun p => (String.mk p.1, Json.str (String.mk p.2))),
        tail) := by
  induction pairs with
  | nil => intro _ _ _ hne; exact absurd rfl hne
  | cons kv rest ih =>
    intro fuel acc tail _ hp hf
    obtain ⟨k, v⟩ := kv
    obtain ⟨f, rfl⟩ : ∃ f, fuel = f + 1 := ⟨fuel - 1, by omega⟩
    obtain ⟨hk, hv⟩ := hp (k, v) (by simp)
    obtain ⟨g, hg⟩ : ∃ g, f = g + 1 := ⟨f - 1, by simp at hf; omega⟩
    cases rest with
    | nil =>
      rw [show StreamingParser.serializeFields [(k, v)] ++ '}' :: tail
          = '"' :: (k ++ ('"' :: (':' :: ('"' :: (v ++ ('"' :: ('}' :: tail))))))) from by
        simp [StreamingParser.serializeFields, StreamingParser.serializeField]]
      rw [parseObjFields_succ]
      simp only [dropJsonWs_cons_of_not '"' _ (by rfl)]
      simp only [parseStrBody_plain_len k (':' :: ('"' :: (v ++ ('"' :: ('}' :: tail))))) hk]
      simp only [dropJsonWs_cons_of_not ':' _ (by rfl)]
      rw [hg]
      simp only [parseValue_string g _ v ('}' :: tail)
        (dropJsonWs_cons_of_not '"' _ (by rfl)) hv]
      simp only [dropJsonWs_cons_of_not '}' _ (by rfl)]
      simp
    | cons r rs =>
      rw [show StreamingParser.serializeFields ((k, v) :: r :: rs) ++ '}' :: tail
          = '"' :: (k ++ ('"' :: (':' :: ('"' :: (v ++ ('"' :: (',' ::
              (StreamingParser.serializeFields (r :: rs) ++ '}' :: tail)))))))) from by
        simp [StreamingParser.serializeFields, StreamingParser.serializeField]]
      rw [parseObjFields_succ]
      simp only [dropJsonWs_cons_of_not '"' _ (by rfl)]
      simp only [parseStrBody_plain_len k
        (':' :: ('"' :: (v ++ ('"' :: (',' ::
          (StreamingParser.serializeFields (r :: rs) ++ '}' :: tail)))))) hk]
      simp only [dropJsonWs_cons_of_not ':' _ (by rfl)]
      rw [hg]
      simp only [parseValue_string g _ v
        (',' :: (StreamingParser.serializeFields (r :: rs) ++ '}' :: tail))
        (dropJsonWs_cons_of_not '"' _ (by rfl)) hv]
      simp only [dropJsonWs_cons_of_not ',' _ (by rfl)]
      have ihr := ih (g + 1) (acc ++ [(String.mk k, Json.str (String.mk v))]) tail (by simp)
        (fun p hp2 => hp p (by simp [hp2])) (by simp only [List.length_cons] at hf ⊢; omega)
      rw [ihr]
      simp

theorem serializeFields_cons_shape (p : List Char × List Char)
    (ps : List (List Char × List Char)) :
    ∃ t, StreamingParser.serializeFields (p :: ps) = '"' :: t := by
  cases ps with
  | nil => exact ⟨_, rfl⟩
  | cons q qs => exact ⟨_, rfl⟩

theorem serializeFields_length_ge (pairs : List (List Char × List Char)) :
    pairs.length ≤ (StreamingParser.serializeFields pairs).length := by
  induction pairs with
  | nil => simp [StreamingParser.serializeFields]
  | cons p ps ih =>
    cases ps with
    | nil =>
      simp [StreamingParser.serializeFields, StreamingParser.serializeField]
    | cons q qs =>
      rw [show StreamingParser.serializeFields (p :: q :: qs)
          = StreamingParser.serializeField p.1 p.2 ++
            (',' :: StreamingParser.serializeFields (q :: qs)) from rfl]
      simp only [List.length_append, List.length_cons] at ih ⊢
      simp [StreamingParser.serializeField]
      omega

theorem parseValue_flatObj (pairs : List (List Char × List Char))
    (hp : ∀ p ∈ pairs, (∀ c ∈ p.1, StreamingParser.plainChar c = true) ∧
        (∀ c ∈ p.2, StreamingParser.plainChar c = true)) :
    ∀ (fuel : Nat) (tail0 : List Char), pairs.length + 4 ≤ fuel →
    parseValue fuel (StreamingParser.serializeFlatObj pairs ++ tail0) =
      some (StreamingParser.metaJson pairs, tail0) := by
  intro fuel tail0 hf
  obtain ⟨f1, rfl⟩ : ∃ f1, fuel = f1 + 1 := ⟨fuel - 1, by omega⟩
  rw [show StreamingParser.serializeFlatObj pairs ++ tail0
      = '{' :: (StreamingParser.serializeFields pairs ++ ('}' :: tail0)) from by
    simp [StreamingParser.serializeFlatObj]]
  rw [parseValue_objBody f1 _ _ (dropJsonWs_cons_of_not '{' _ (by rfl))]
  obtain ⟨f2, rfl⟩ : ∃ f2, f1 = f2 + 1 := ⟨f1 - 1, by omega⟩
  cases pairs with
  | nil =>
    rw [show StreamingParser.serializeFields [] ++ ('}' :: tail0) = '}' :: tail0 from rfl]
    rw [parseObjBody_empty f2 _ _ (dropJsonWs_cons_of_not '}' _ (by rfl))]
    simp [StreamingParser.metaJson]
  | cons p ps =>
    obtain ⟨t, ht⟩ := serializeFields_cons_shape p ps
    have hl2 : dropJsonWs (StreamingParser.serializeFields (p :: ps) ++ ('}' :: tail0))
        = '"' :: (t ++ ('}' :: tail0)) := by
      rw [ht]
      simpa using dropJsonWs_cons_of_not '"' (t ++ ('}' :: tail0)) (by rfl)
    rw [parseObjBody_quote f2 _ _ hl2]
    rw [parseObjFields_serialized (p :: ps) f2 [] tail0 (by simp) hp
      (by simp only [List.length_cons] at hf ⊢; omega)]
    simp [StreamingParser.metaJson]

theorem parseValue_metaWrapped (pairs : List (List Char × List Char))
    (hp : ∀ p ∈ pairs, (∀ c ∈ p.1, StreamingParser.plainChar c = true) ∧
        (∀ c ∈ p.2, StreamingParser.plainChar c = true)) :
    ∀ (fuel : Nat), pairs.length + 8 ≤ fuel →
    parseValue fuel
      ('{' :: (metadataLit ++ (':' :: (StreamingParser.serializeFlatObj pairs ++ ['}'])))) =
      some (Json.obj [("metadata", StreamingParser.metaJson pairs)], []) := by
  intro fuel hf
  obtain ⟨f1, rfl⟩ : ∃ f1, fuel = f1 + 1 := ⟨fuel - 1, by omega⟩
  rw [parseValue_objBody f1 _ _ (dropJsonWs_cons_of_not '{' _ (by rfl))]
  obtain ⟨f2, rfl⟩ : ∃ f2, f1 = f2 + 1 := ⟨f1 - 1, by omega⟩
  rw [show metadataLit ++ (':' :: (StreamingParser.serializeFlatObj pairs ++ ['}']))
      = '"' :: ((['m', 'e', 't', 'a', 'd', 'a', 't', 'a'] : List Char) ++
        ('"' :: (':' :: (StreamingParser.serializeFlatObj pairs ++ ['}'])))) from rfl]
  rw [parseObjBody_quote f2 _ _ (dropJsonWs_cons_of_not '"' _ (by rfl))]
  obtain ⟨f3, rfl⟩ : ∃ f3, f2 = f3 + 1 := ⟨f2 - 1, by omega⟩
  rw [parseObjFields_succ]
  simp only [dropJsonWs_cons_of_not '"' _ (by rfl)]
  simp only [parseStrBody_plain_len (['m', 'e', 't', 'a', 'd', 'a', 't', 'a'] : List Char)
    (':' :: (StreamingParser.serializeFlatObj pairs ++ ['}'])) (by decide)]
  simp only [dropRegexWs_cons_of_not ':' _ (by rfl), dropJsonWs_cons_of_not ':' _ (by rfl)]
  have hflat := parseValue_flatObj pairs hp f3 ['}'] (by omega)
  simp only [hflat]
  simp only [dropJsonWs_cons_of_not '}' _ (by rfl)]
  simp

theorem jsonParse_metaWrapped (pairs : List (List Char × List Char))
    (hp : ∀ p ∈ pairs, (∀ c ∈ p.1, StreamingParser.plainChar c = true) ∧
        (∀ c ∈ p.2, StreamingParser.plainChar c = true)) :
    jsonParse
      ('{' :: (metadataLit ++ (':' :: (StreamingParser.serializeFlatObj pairs ++ ['}'])))) =
      some (Json.obj [("metadata", StreamingParser.metaJson pairs)]) := by
  have hS := serializeFields_length_ge pairs
  simp only [jsonParse]
  rw [parseValue_metaWrapped pairs hp _ (by
    simp only [List.length_cons, List.length_append, StreamingParser.serializeFlatObj,
      metadataLit] at hS ⊢
    omega)]
  simp [dropJsonWs]

theorem jsonParse_serializeFlatObj (pairs : List (List Char × List Char))
    (hp : ∀ p ∈ pairs, (∀ c ∈ p.1, StreamingParser.plainChar c = true) ∧
        (∀ c ∈ p.2, StreamingParser.plainChar c = true)) :
    jsonParse (StreamingParser.serializeFlatObj pairs) =
      some (StreamingParser.metaJson pairs) := by
  have hS := serializeFields_length_ge pairs
  have hflat : parseValue (3 * (StreamingParser.serializeFlatObj pairs).length + 3)
      (StreamingParser.serializeFlatObj pairs) = some (StreamingParser.metaJson pairs, []) := by
    have := parseValue_flatObj pairs hp
      (3 * (StreamingParser.serializeFlatObj pairs).length + 3) [] (by
        simp only [List.length_cons, List.length_append, StreamingParser.serializeFlatObj]
          at hS ⊢
        omega)
    simpa using this
  simp only [jsonParse]
  rw [hflat]
  simp [dropJsonWs]

/-- Claim C2 (amended): the metadata region is located by a plain regex
whose capture runs from the opening brace to the first following close
brace — not by a string/escape-aware brace-depth scanner — so a Metadata
event carrying exactly the parsed contents of the metadata object is
emitted for buffers whose metadata object contains no `\x7d` before its
closing brace (here: any flat string-valued metadata whose texts avoid
quote, backslash and braces, with arbitrary following text); when a string
value contains `\x7d`, the capture mis-slices and no Metadata event is
emitted (see the counterexample). -/
theorem extractMetadata_flat_correct (pairs : List (List Char × List Char)) (rest : List Char)
    (hp : ∀ p ∈ pairs, (∀ c ∈ p.1, StreamingParser.plainChar c = true) ∧
        (∀ c ∈ p.2, StreamingParser.plainChar c = true)) :
    StreamingParser.extractMetadata (StreamingParser.mkMetadataBuffer pairs rest) =
      some (StreamingParser.metaJson pairs) ∧
    jsonParse (StreamingParser.serializeFlatObj pairs) =
      some (StreamingParser.metaJson pairs) ∧
    ((StreamingParser.processChunk StreamingParser.initialState
        (StreamingParser.mkMetadataBuffer pairs rest) 0).1.head? =
      some (StreamingParser.ParsedChunk.metadata (StreamingParser.metaJson pairs))) := by
  have hcap := metadataCapture_mkBuffer pairs rest hp
  have hwrap := jsonParse_metaWrapped pairs hp
  have hEM : StreamingParser.extractMetadata (StreamingParser.mkMetadataBuffer pairs rest) =
      some (StreamingParser.metaJson pairs) := by
    simp only [StreamingParser.extractMetadata, hcap]
    rw [show "\x7b\"metadata\":".data ++ StreamingParser.serializeFlatObj pairs ++ "\x7d".data
        = '{' :: (metadataLit ++ (':' :: (StreamingParser.serializeFlatObj pairs ++ ['}'])))
        from rfl]
    rw [hwrap]
    simp [Json.getField, lookupLast]
  refine ⟨hEM, jsonParse_serializeFlatObj pairs hp, ?_⟩
  simp only [StreamingParser.processChunk, StreamingParser.metaStep,
    StreamingParser.initialState, List.nil_append]
  simp only [hEM]
  split <;> simp

/-- Witness for C2 (amended) at a concrete two-field metadata object
followed by the rest of a response buffer. -/
theorem extractMetadata_flat_correct_witness :
    StreamingParser.extractMetadata (StreamingParser.mkMetadataBuffer
        [("title".data, "T".data), ("jurisdiction".data, "J".data)]
        (", \"hierarchy\": []\x7d".data)) =
      some (StreamingParser.metaJson
        [("title".data, "T".data), ("jurisdiction".data, "J".data)]) ∧
    jsonParse (StreamingParser.serializeFlatObj
        [("title".data, "T".data), ("jurisdiction".data, "J".data)]) =
      some (StreamingParser.metaJson
        [("title".data, "T".data), ("jurisdiction".data, "J".data)]) ∧
    ((StreamingParser.processChunk StreamingParser.initialState
        (StreamingParser.mkMetadataBuffer
          [("title".data, "T".data), ("jurisdiction".data, "J".data)]
          (", \"hierarchy\": []\x7d".data)) 0).1.head? =
      some (StreamingParser.ParsedChunk.metadata (StreamingParser.metaJson
        [("title".data, "T".data), ("jurisdiction".data, "J".data)]))) :=
  extractMetadata_flat_correct
    [("title".data, "T".data), ("jurisdiction".data, "J".data)]
    (", \"hierarchy\": []\x7d".data) (by decide)

/-! ## C4: depth/span lemmas for the brace-and-string-aware scanner -/

theorem scanStep_braceCount_esc (st : StreamingParser.ScanState) (c : Char)
    (h : st.escapeNext = true ∨ c = '\\') :
    (StreamingParser.scanStep st c).braceCount = st.braceCount := by
  rcases h with h | h
  · simp [StreamingParser.scanStep, h]
  · by_cases h2 : st.escapeNext = true <;>
      simp [StreamingParser.scanStep, h, h2]

theorem scanStep_braceCount_lb (st : StreamingParser.ScanState) (c : Char) :
    st.braceCount - 1 ≤ (StreamingParser.scanStep st c).braceCount := by
  unfold StreamingParser.scanStep
  split_ifs <;> simp <;> omega

theorem scanStep_zero_char (st : StreamingParser.ScanState) (c : Char)
    (hesc : st.escapeNext = false) (hbs : ¬ c = '\\') (hbc : 1 ≤ st.braceCount)
    (h0 : (StreamingParser.scanStep st c).braceCount = 0) :
    c = '}' ∧ st.braceCount = 1 ∧ st.inString = false := by
  by_cases hq : c = '"'
  · cases hstr : st.inString <;>
      · simp [StreamingParser.scanStep, hesc, hbs, hq, hstr] at h0
        omega
  · cases hstr : st.inString
    · by_cases ho : c = '{'
      · simp [StreamingParser.scanStep, hesc, hbs, hq, hstr, ho] at h0
        omega
      · by_cases hcl : c = '}'
        · refine ⟨hcl, ?_, rfl⟩
          simp [StreamingParser.scanStep, hesc, hbs, hq, hstr, ho, hcl] at h0
          omega
        · simp [StreamingParser.scanStep, hesc, hbs, hq, hstr, ho, hcl] at h0
          omega
    · simp [StreamingParser.scanStep, hesc, hbs, hq, hstr] at h0
      omega

theorem scanStep_changed (st : StreamingParser.ScanState) (c : Char)
    (h : (StreamingParser.scanStep st c).braceCount ≠ st.braceCount) :
    st.inString = false ∧ st.escapeNext = false ∧ (c = '{' ∨ c = '}') := by
  by_cases hesc : st.escapeNext = true
  · exact absurd (scanStep_braceCount_esc st c (Or.inl hesc)) h
  · by_cases hbs : c = '\\'
    · exact absurd (scanStep_braceCount_esc st c (Or.inr hbs)) h
    · have hesc' : st.escapeNext = false := by
        cases hv : st.escapeNext
        · rfl
        · exact absurd hv hesc
      by_cases hq : c = '"'
      · cases hstr : st.inString <;>
          · exfalso
            apply h
            simp [StreamingParser.scanStep, hesc', hbs, hq, hstr]
      · cases hstr : st.inString
        · by_cases ho : c = '{'
          · exact ⟨rfl, hesc', Or.inl ho⟩
          · by_cases hcl : c = '}'
            · exact ⟨rfl, hesc', Or.inr hcl⟩
            · exfalso
              apply h
              simp [StreamingParser.scanStep, hesc', hbs, hq, hstr, ho, hcl]
        · exfalso
          apply h
          simp [StreamingParser.scanStep, hesc', hbs, hq, hstr]

theorem scanPrefix_append_le (p q : List Char) (k : Nat) (h : k ≤ p.length) :
    StreamingParser.scanPrefix (p ++ q) k = StreamingParser.scanPrefix p k := by
  unfold StreamingParser.scanPrefix
  rw [List.take_append_of_le_length h]

theorem scanPrefix_snoc (p : List Char) (c : Char) :
    StreamingParser.scanPrefix (p ++ [c]) (p.length + 1) =
      StreamingParser.scanStep (StreamingParser.scanPrefix p p.length) c := by
  have h1 : (p ++ [c]).take (p.length + 1) = p ++ [c] :=
    List.take_all_of_le (by simp)
  unfold StreamingParser.scanPrefix
  rw [h1, List.foldl_append, List.take_length]
  rfl

theorem scanPrefix_succ_get (p : List Char) (i : Nat) (c : Char)
    (h : p.get? i = some c) :
    StreamingParser.scanPrefix p (i + 1) =
      StreamingParser.scanStep (StreamingParser.scanPrefix p i) c := by
  have h' : p[i]? = some c := by
    rw [← List.get?_eq_getElem?]
    exact h
  unfold StreamingParser.scanPrefix
  rw [List.take_succ, h']
  rw [List.foldl_append]
  rfl

theorem jsTrim_cons_ne_nil (c : Char) (xs : List Char) (hc : regexWs c = false) :
    jsTrim (c :: xs) ≠ [] := by
  unfold jsTrim
  intro h
  rw [List.dropWhile_cons] at h
  rw [hc] at h
  simp only [Bool.false_eq_true, if_false] at h
  rw [List.reverse_eq_nil_iff, List.dropWhile_eq_nil_iff] at h
  have := h c (by simp)
  rw [hc] at this
  exact Bool.false_ne_true this

theorem GoodSpan_append (p q : List Char) (a b : Nat) (txt : List Char)
    (h : StreamingParser.GoodSpan p a b txt) :
    StreamingParser.GoodSpan (p ++ q) a b txt := by
  obtain ⟨hab, hb, htxt, hga, hgb, h0, hs, he, h1, hb1, hk⟩ := h
  refine ⟨hab, ?_, ?_, ?_, ?_, ?_, ?_, ?_, ?_, ?_, ?_⟩
  · simp
    omega
  · rw [List.drop_append_of_le_length (by omega),
        List.take_append_of_le_length (by simp; omega)]
    exact htxt
  · rw [List.get?_append (by omega)]
    exact hga
  · rw [List.get?_append hb]
    exact hgb
  · rw [scanPrefix_append_le p q a (by omega)]
    exact h0
  · rw [scanPrefix_append_le p q a (by omega)]
    exact hs
  · rw [scanPrefix_append_le p q a (by omega)]
    exact he
  · rw [scanPrefix_append_le p q (a + 1) (by omega)]
    exact h1
  · rw [scanPrefix_append_le p q (b + 1) (by omega)]
    exact hb1
  · intro k hk1 hk2
    rw [scanPrefix_append_le p q k (by omega)]
    exact hk k hk1 hk2

theorem runObjScan_snoc (p : List Char) (c : Char) :
    StreamingParser.runObjScan (p ++ [c]) =
      StreamingParser.objScanStep (StreamingParser.runObjScan p) c := by
  unfold StreamingParser.runObjScan
  rw [List.foldl_append]
  rfl

theorem scanInv_step (p : List Char) (c : Char) (st : StreamingParser.ObjScanState)
    (h : StreamingParser.ScanInv p st) :
    StreamingParser.ScanInv (p ++ [c]) (StreamingParser.objScanStep st c) := by
  obtain ⟨hidx, hctrl, hfound, hobj⟩ := h
  have hlen : (p ++ [c]).length = p.length + 1 := by simp
  have hctrl2 : StreamingParser.scanPrefix (p ++ [c]) (p.length + 1) =
      StreamingParser.scanStep st.ctrl c := by
    rw [scanPrefix_snoc, ← hctrl]
  by_cases hesc : st.ctrl.escapeNext = true ∨ c = '\\'
  case pos =>
    have hstep : StreamingParser.objScanStep st c =
        { st with ctrl := StreamingParser.scanStep st.ctrl c,
                  currentObject := st.currentObject ++ [c], idx := st.idx + 1 } := by
      unfold StreamingParser.objScanStep
      rw [if_pos hesc]
    rw [hstep]
    refine ⟨?_, ?_, ?_, ?_⟩
    · show st.idx + 1 = (p ++ [c]).length
      rw [hidx, hlen]
    · show StreamingParser.scanStep st.ctrl c =
        StreamingParser.scanPrefix (p ++ [c]) ((p ++ [c]).length)
      rw [hlen, hctrl2]
    · intro a b txt hmem
      exact GoodSpan_append p [c] a b txt (hfound a b txt hmem)
    · show StreamingParser.InObjInv (p ++ [c]) st.objectStart
        (st.currentObject ++ [c])
      cases hos : st.objectStart with
      | none => exact trivial
      | some a =>
        rw [hos] at hobj
        obtain ⟨ha, hga, h0, hs0, he0, h1, hcur, hk⟩ := hobj
        refine ⟨?_, ?_, ?_, ?_, ?_, ?_, ?_, ?_⟩
        · rw [hlen]; omega
        · rw [List.get?_append ha]; exact hga
        · rw [scanPrefix_append_le p [c] a (le_of_lt ha)]; exact h0
        · rw [scanPrefix_append_le p [c] a (le_of_lt ha)]; exact hs0
        · rw [scanPrefix_append_le p [c] a (le_of_lt ha)]; exact he0
        · rw [scanPrefix_append_le p [c] (a + 1) ha]; exact h1
        · rw [List.drop_append_of_le_length (le_of_lt ha), hcur]
        · intro k hk1 hk2
          rw [hlen] at hk2
          by_cases hkp : k ≤ p.length
          · rw [scanPrefix_append_le p [c] k hkp]; exact hk k hk1 hkp
          · have hkk : k = p.length + 1 := by omega
            subst hkk
            rw [hctrl2, scanStep_braceCount_esc st.ctrl c hesc, hctrl]
            exact hk p.length ha (le_refl _)
  case neg =>
    have h2 := hesc
    push_neg at h2
    obtain ⟨hesc1, hbs⟩ := h2
    have hesc0 : st.ctrl.escapeNext = false := by
      cases hv : st.ctrl.escapeNext
      · rfl
      · exact absurd hv hesc1
    by_cases hop : (st.ctrl.inString = false ∧ c = '{' ∧ st.ctrl.braceCount = 0)
    case pos =>
      obtain ⟨hstr0, hco, hbc0⟩ := hop
      subst hco
      have hb1 : (StreamingParser.scanStep st.ctrl '{').braceCount = 1 := by
        simp [StreamingParser.scanStep, hesc0, hstr0, hbc0,
          show ¬ ('{' : Char) = '\\' by decide, show ¬ ('{' : Char) = '"' by decide]
      have hstep : StreamingParser.objScanStep st '{' =
          ⟨StreamingParser.scanStep st.ctrl '{', ['{'], some st.idx, st.idx + 1,
            st.found⟩ := by
        simp [StreamingParser.objScanStep, hesc0, hstr0, hbc0, hb1,
          show ¬ ('{' : Char) = '\\' by decide]
      rw [hstep]
      refine ⟨?_, ?_, ?_, ?_⟩
      · show st.idx + 1 = (p ++ ['{']).length
        rw [hidx, hlen]
      · show StreamingParser.scanStep st.ctrl '{' =
          StreamingParser.scanPrefix (p ++ ['{']) ((p ++ ['{']).length)
        rw [hlen, hctrl2]
      · intro a b txt hmem
        exact GoodSpan_append p ['{'] a b txt (hfound a b txt hmem)
      · show StreamingParser.InObjInv (p ++ ['{']) (some st.idx) ['{']
        rw [hidx]
        refine ⟨?_, ?_, ?_, ?_, ?_, ?_, ?_, ?_⟩
        · rw [hlen]; omega
        · rw [List.get?_concat_length]
        · rw [scanPrefix_append_le p ['{'] p.length (le_refl _), ← hctrl]; exact hbc0
        · rw [scanPrefix_append_le p ['{'] p.length (le_refl _), ← hctrl]; exact hstr0
        · rw [scanPrefix_append_le p ['{'] p.length (le_refl _), ← hctrl]; exact hesc0
        · rw [hctrl2, hb1]
        · rw [List.drop_left]
        · intro k hk1 hk2
          rw [hlen] at hk2
          have hkk : k = p.length + 1 := by omega
          subst hkk
          rw [hctrl2, hb1]
    case neg =>
      cases hos : st.objectStart with
      | none =>
        have hstep : StreamingParser.objScanStep st c =
            ⟨StreamingParser.scanStep st.ctrl c, st.currentObject ++ [c], none,
              st.idx + 1, st.found⟩ := by
          simp [StreamingParser.objScanStep, hesc0, hbs, hop, hos]
        rw [hstep]
        refine ⟨?_, ?_, ?_, ?_⟩
        · show st.idx + 1 = (p ++ [c]).length
          rw [hidx, hlen]
        · show StreamingParser.scanStep st.ctrl c =
            StreamingParser.scanPrefix (p ++ [c]) ((p ++ [c]).length)
          rw [hlen, hctrl2]
        · intro a b txt hmem
          exact GoodSpan_append p [c] a b txt (hfound a b txt hmem)
        · exact trivial
      | some a =>
        rw [hos] at hobj
        obtain ⟨ha, hga, h0, hs0, he0, h1, hcur, hk⟩ := hobj
        have hbc1 : 1 ≤ st.ctrl.braceCount := by
          rw [hctrl]; exact hk p.length ha (le_refl _)
        by_cases hdone : ((StreamingParser.scanStep st.ctrl c).braceCount = 0 ∧
            jsTrim (st.currentObject ++ [c]) ≠ [])
        case pos =>
          have hstep : StreamingParser.objScanStep st c =
              ⟨StreamingParser.scanStep st.ctrl c, [], none, st.idx + 1,
                st.found ++ [(a, st.idx, st.currentObject ++ [c])]⟩ := by
            simp [StreamingParser.objScanStep, hesc0, hbs, hop, hos, hdone.1,
              hdone.2]
          rw [hstep]
          refine ⟨?_, ?_, ?_, ?_⟩
          · show st.idx + 1 = (p ++ [c]).length
            rw [hidx, hlen]
          · show StreamingParser.scanStep st.ctrl c =
              StreamingParser.scanPrefix (p ++ [c]) ((p ++ [c]).length)
            rw [hlen, hctrl2]
          · intro a' b' txt hmem
            simp only [List.mem_append, List.mem_singleton] at hmem
            rcases hmem with hmem | hmem
            · exact GoodSpan_append p [c] a' b' txt (hfound a' b' txt hmem)
            · rw [Prod.mk.injEq, Prod.mk.injEq] at hmem
              obtain ⟨rfl, rfl, rfl⟩ := hmem
              rw [hidx, hcur]
              obtain ⟨hcl, hbceq, hstrz⟩ :=
                scanStep_zero_char st.ctrl c hesc0 hbs hbc1 hdone.1
              refine ⟨le_of_lt ha, ?_, ?_, ?_, ?_, ?_, ?_, ?_, ?_, ?_, ?_⟩
              · rw [hlen]; omega
              · rw [List.drop_append_of_le_length (le_of_lt ha)]
                have hl2 : (p.drop a' ++ [c]).length = p.length + 1 - a' := by
                  simp
                  omega
                rw [List.take_of_length_le (le_of_eq hl2)]
              · rw [List.get?_append ha]; exact hga
              · rw [List.get?_concat_length, hcl]
              · rw [scanPrefix_append_le p [c] a' (le_of_lt ha)]; exact h0
              · rw [scanPrefix_append_le p [c] a' (le_of_lt ha)]; exact hs0
              · rw [scanPrefix_append_le p [c] a' (le_of_lt ha)]; exact he0
              · rw [scanPrefix_append_le p [c] (a' + 1) ha]; exact h1
              · rw [hctrl2]; exact hdone.1
              · intro k hk1 hk2
                rw [scanPrefix_append_le p [c] k hk2]
                exact hk k hk1 hk2
          · show StreamingParser.InObjInv (p ++ [c]) none []
            exact trivial
        case neg =>
          have hb0 : ¬ (StreamingParser.scanStep st.ctrl c).braceCount = 0 := by
            intro hz
            apply hdone
            refine ⟨hz, ?_⟩
            rw [hcur]
            have ha' : a < p.length := ha
            have hgetA : p[a] = '{' := by
              have hx := hga
              rw [List.get?_eq_getElem?, List.getElem?_eq_getElem ha'] at hx
              exact Option.some.inj hx
            have hdrop : p.drop a = '{' :: p.drop (a + 1) := by
              rw [List.drop_eq_getElem_cons ha', hgetA]
            rw [hdrop, List.cons_append]
            exact jsTrim_cons_ne_nil '{' _ (by decide)
          have hstep : StreamingParser.objScanStep st c =
              ⟨StreamingParser.scanStep st.ctrl c, st.currentObject ++ [c], some a,
                st.idx + 1, st.found⟩ := by
            simp [StreamingParser.objScanStep, hesc0, hbs, hop, hos, hb0]
          rw [hstep]
          refine ⟨?_, ?_, ?_, ?_⟩
          · show st.idx + 1 = (p ++ [c]).length
            rw [hidx, hlen]
          · show StreamingParser.scanStep st.ctrl c =
              StreamingParser.scanPrefix (p ++ [c]) ((p ++ [c]).length)
            rw [hlen, hctrl2]
          · intro a' b' txt hmem
            exact GoodSpan_append p [c] a' b' txt (hfound a' b' txt hmem)
          · show StreamingParser.InObjInv (p ++ [c]) (some a)
              (st.currentObject ++ [c])
            refine ⟨?_, ?_, ?_, ?_, ?_, ?_, ?_, ?_⟩
            · rw [hlen]; omega
            · rw [List.get?_append ha]; exact hga
            · rw [scanPrefix_append_le p [c] a (le_of_lt ha)]; exact h0
            · rw [scanPrefix_append_le p [c] a (le_of_lt ha)]; exact hs0
            · rw [scanPrefix_append_le p [c] a (le_of_lt ha)]; exact he0
            · rw [scanPrefix_append_le p [c] (a + 1) ha]; exact h1
            · rw [List.drop_append_of_le_length (le_of_lt ha), hcur]
            · intro k hk1 hk2
              rw [hlen] at hk2
              by_cases hkp : k ≤ p.length
              · rw [scanPrefix_append_le p [c] k hkp]; exact hk k hk1 hkp
              · have hkk : k = p.length + 1 := by omega
                subst hkk
                rw [hctrl2]
                have hlb := scanStep_braceCount_lb st.ctrl c
                omega

theorem scanInv_run (p : List Char) :
    StreamingParser.ScanInv p (StreamingParser.runObjScan p) := by
  induction p using List.reverseRecOn with
  | nil =>
    refine ⟨rfl, rfl, ?_, trivial⟩
    intro a b txt hmem
    exact absurd hmem (List.not_mem_nil _)
  | append_singleton q c ih =>
    rw [runObjScan_snoc]
    exact scanInv_step q c _ ih

/-- C4: for every input buffer, the depth counter of the
`extractCompleteObjects` scanner changes across a character only when that
character is a `\x7b` or `\x7d` lying outside a string literal with the
escape flag clear (so braces inside strings, including after escaped quotes
and escaped backslashes, never change the depth), and every candidate
object span recorded by the scanner is exactly the inclusive text from a
`\x7b` taking the depth from 0 to 1 through the `\x7d` returning it to 0,
with the depth staying positive strictly in between. -/
theorem extractCompleteObjects_scanner_exact (p : List Char) :
    (∀ i c, p.get? i = some c →
      (StreamingParser.scanPrefix p (i + 1)).braceCount ≠
        (StreamingParser.scanPrefix p i).braceCount →
      (StreamingParser.scanPrefix p i).inString = false ∧
      (StreamingParser.scanPrefix p i).escapeNext = false ∧
      (c = '{' ∨ c = '}')) ∧
    (∀ a b txt, (a, b, txt) ∈ StreamingParser.extractCompleteObjectsSpans p →
      a ≤ b ∧ b < p.length ∧
      txt = (p.drop a).take (b + 1 - a) ∧
      p.get? a = some '{' ∧ p.get? b = some '}' ∧
      (StreamingParser.scanPrefix p a).braceCount = 0 ∧
      (StreamingParser.scanPrefix p a).inString = false ∧
      (StreamingParser.scanPrefix p (a + 1)).braceCount = 1 ∧
      (StreamingParser.scanPrefix p (b + 1)).braceCount = 0 ∧
      (∀ k, a < k → k ≤ b →
        1 ≤ (StreamingParser.scanPrefix p k).braceCount)) := by
  constructor
  · intro i c hget hne
    rw [scanPrefix_succ_get p i c hget] at hne
    exact scanStep_changed _ c hne
  · intro a b txt hmem
    obtain ⟨-, -, hfound, -⟩ := scanInv_run p
    obtain ⟨hab, hb, htxt, hga, hgb, h0, hs, he, h1, hb1, hk⟩ :=
      hfound a b txt hmem
    exact ⟨hab, hb, htxt, hga, hgb, h0, hs, h1, hb1, hk⟩

theorem extractCompleteObjects_scanner_exact_witness :
    (c4Input.get? 0 = some '{' ∧
     (StreamingParser.scanPrefix c4Input 1).braceCount ≠
       (StreamingParser.scanPrefix c4Input 0).braceCount ∧
     (StreamingParser.scanPrefix c4Input 0).inString = false ∧
     (StreamingParser.scanPrefix c4Input 0).escapeNext = false ∧
     ('{' = '{' ∨ '{' = '}')) ∧
    ((0, 9, c4Input) ∈ StreamingParser.extractCompleteObjectsSpans c4Input ∧
     c4Input = (c4Input.drop 0).take (9 + 1 - 0) ∧
     c4Input.get? 0 = some '{' ∧ c4Input.get? 9 = some '}' ∧
     (StreamingParser.scanPrefix c4Input 0).braceCount = 0 ∧
     (StreamingParser.scanPrefix c4Input 1).braceCount = 1 ∧
     (StreamingParser.scanPrefix c4Input 10).braceCount = 0) := by
  have h1 := (extractCompleteObjects_scanner_exact c4Input).1 0 '{'
    (by decide) (by decide)
  have h2 := (extractCompleteObjects_scanner_exact c4Input).2 0 9 c4Input
    (by decide)
  exact ⟨⟨by decide, by decide, h1.1, h1.2.1, h1.2.2⟩,
    ⟨by decide, h2.2.2.1, h2.2.2.2.1, h2.2.2.2.2.1, h2.2.2.2.2.2.1,
      h2.2.2.2.2.2.2.2.1, h2.2.2.2.2.2.2.2.2.1⟩⟩

/-! ## C3: stability of the hierarchy-marker match under appended text -/

theorem expectPrefixChars_append (ps s t r : List Char)
    (h : expectPrefixChars ps s = some r) :
    expectPrefixChars ps (s ++ t) = some (r ++ t) := by
  induction ps generalizing s with
  | nil =>
    unfold expectPrefixChars at h ⊢
    injection h with h1
    rw [h1]
  | cons p ps ih =>
    cases s with
    | nil => simp [expectPrefixChars] at h
    | cons c cs =>
      rw [List.cons_append]
      unfold expectPrefixChars at h ⊢
      by_cases hc : c = p
      · rw [if_pos hc] at h ⊢
        exact ih cs h
      · rw [if_neg hc] at h
        exact absurd h (by simp)

theorem expectPrefixChars_ranout_mem (ps s t R : List Char)
    (h1 : expectPrefixChars ps (s ++ t) = some R)
    (h2 : expectPrefixChars ps s = none) :
    ∀ x ∈ s, x ∈ ps := by
  induction ps generalizing s with
  | nil =>
    unfold expectPrefixChars at h2
    exact absurd h2 (by simp)
  | cons p ps ih =>
    cases s with
    | nil =>
      intro x hx
      simp at hx
    | cons c cs =>
      rw [List.cons_append] at h1
      unfold expectPrefixChars at h1 h2
      by_cases hc : c = p
      · rw [if_pos hc] at h1 h2
        intro x hx
        rcases List.mem_cons.mp hx with hx | hx
        · rw [hx, hc]; exact List.mem_cons_self _ _
        · exact List.mem_cons_of_mem _ (ih cs h1 h2 x hx)
      · rw [if_neg hc] at h1
        exact absurd h1 (by simp)

theorem expectPrefixChars_consumed (ps s r : List Char)
    (h : expectPrefixChars ps s = some r) : s = ps ++ r := by
  induction ps generalizing s with
  | nil =>
    unfold expectPrefixChars at h
    injection h with h1
  | cons p ps ih =>
    cases s with
    | nil => simp [expectPrefixChars] at h
    | cons c cs =>
      unfold expectPrefixChars at h
      by_cases hc : c = p
      · rw [if_pos hc] at h
        rw [List.cons_append, hc, ih cs h]
      · rw [if_neg hc] at h
        exact absurd h (by simp)

theorem dropRegexWs_append_cons (s t : List Char) (c : Char) (r : List Char)
    (h : dropRegexWs s = c :: r) : dropRegexWs (s ++ t) = c :: (r ++ t) := by
  induction s with
  | nil => simp [dropRegexWs] at h
  | cons d s ih =>
    rw [List.cons_append]
    unfold dropRegexWs at h ⊢
    rw [List.dropWhile_cons] at h ⊢
    by_cases hd : regexWs d = true
    · rw [if_pos hd] at h ⊢
      exact ih h
    · rw [if_neg hd] at h ⊢
      injection h with h1 h2
      rw [h1, h2]

theorem dropRegexWs_append_nil (s t : List Char)
    (h : dropRegexWs s = []) : dropRegexWs (s ++ t) = dropRegexWs t := by
  induction s with
  | nil => rfl
  | cons d s ih =>
    rw [List.cons_append]
    unfold dropRegexWs at h ⊢
    rw [List.dropWhile_cons] at h ⊢
    by_cases hd : regexWs d = true
    · rw [if_pos hd] at h ⊢
      exact ih h
    · rw [if_neg hd] at h
      exact absurd h (by simp)

theorem dropRegexWs_nil_allWs (s : List Char) (h : dropRegexWs s = []) :
    ∀ x ∈ s, regexWs x = true := by
  unfold dropRegexWs at h
  exact List.dropWhile_eq_nil_iff.mp h

theorem dropRegexWs_split (s : List Char) :
    s = s.takeWhile regexWs ++ dropRegexWs s :=
  (List.takeWhile_append_dropWhile regexWs s).symm

theorem matchHierarchyAt_build (l r1 r2 r3 : List Char)
    (h1 : expectPrefixChars hierarchyLit l = some r1)
    (h2 : dropRegexWs r1 = ':' :: r2)
    (h3 : dropRegexWs r2 = '[' :: r3) :
    StreamingParser.matchHierarchyAt l = some r3 := by
  unfold StreamingParser.matchHierarchyAt
  simp [h1, h2, h3]

theorem matchHierarchyAt_destruct (s r : List Char)
    (h : StreamingParser.matchHierarchyAt s = some r) :
    ∃ r1 r2, expectPrefixChars hierarchyLit s = some r1 ∧
      dropRegexWs r1 = ':' :: r2 ∧ dropRegexWs r2 = '[' :: r := by
  unfold StreamingParser.matchHierarchyAt at h
  split at h
  · exact absurd h (by simp)
  · rename_i r1 heq1
    split at h
    · rename_i c2 r2 heq2
      split at h
      · rename_i hc2
        split at h
        · rename_i c3 r3 heq3
          split at h
          · rename_i hc3
            injection h with hr
            subst hc2
            subst hc3
            subst hr
            exact ⟨r1, r2, heq1, heq2, heq3⟩
          · exact absurd h (by simp)
        · exact absurd h (by simp)
      · exact absurd h (by simp)
    · exact absurd h (by simp)

theorem matchHierarchyAt_append (s t r : List Char)
    (h : StreamingParser.matchHierarchyAt s = some r) :
    StreamingParser.matchHierarchyAt (s ++ t) = some (r ++ t) := by
  obtain ⟨r1, r2, h1, h2, h3⟩ := matchHierarchyAt_destruct s r h
  exact matchHierarchyAt_build (s ++ t) (r1 ++ t) (r2 ++ t) (r ++ t)
    (expectPrefixChars_append hierarchyLit s t r1 h1)
    (dropRegexWs_append_cons r1 t ':' r2 h2)
    (dropRegexWs_append_cons r2 t '[' r h3)

theorem matchHierarchyAt_mem (s r : List Char)
    (h : StreamingParser.matchHierarchyAt s = some r) : '[' ∈ s := by
  obtain ⟨r1, r2, h1, h2, h3⟩ := matchHierarchyAt_destruct s r h
  rw [expectPrefixChars_consumed hierarchyLit s r1 h1]
  refine List.mem_append.mpr (Or.inr ?_)
  rw [dropRegexWs_split r1, h2]
  refine List.mem_append.mpr (Or.inr ?_)
  refine List.mem_cons_of_mem _ ?_
  rw [dropRegexWs_split r2, h3]
  exact List.mem_append.mpr (Or.inr (List.mem_cons_self _ _))

theorem matchHierarchyAt_newly (s t R : List Char)
    (hsucc : StreamingParser.matchHierarchyAt (s ++ t) = some R)
    (hfail : StreamingParser.matchHierarchyAt s = none) :
    '[' ∉ s := by
  intro hmem
  obtain ⟨R1, R2, H1, H2, H3⟩ := matchHierarchyAt_destruct (s ++ t) R hsucc
  cases h1 : expectPrefixChars hierarchyLit s with
  | none =>
    have hm := expectPrefixChars_ranout_mem hierarchyLit s t R1 H1 h1
    exact absurd (hm '[' hmem) (by decide)
  | some r1 =>
    rw [expectPrefixChars_append hierarchyLit s t r1 h1] at H1
    injection H1 with hR1
    subst hR1
    have hr1 : '[' ∈ r1 := by
      rw [expectPrefixChars_consumed hierarchyLit s r1 h1] at hmem
      rcases List.mem_append.mp hmem with hx | hx
      · exact absurd hx (by decide)
      · exact hx
    cases h2 : dropRegexWs r1 with
    | nil =>
      exact absurd (dropRegexWs_nil_allWs r1 h2 '[' hr1) (by decide)
    | cons c2 r2 =>
      rw [dropRegexWs_append_cons r1 t c2 r2 h2] at H2
      injection H2 with hc2 hR2
      subst hc2
      subst hR2
      have hr2 : '[' ∈ r2 := by
        rw [dropRegexWs_split r1, h2] at hr1
        rcases List.mem_append.mp hr1 with hx | hx
        · exact absurd (List.mem_takeWhile_imp hx) (by decide)
        · rcases List.mem_cons.mp hx with hx | hx
          · exact absurd hx (by decide)
          · exact hx
      cases h3 : dropRegexWs r2 with
      | nil =>
        exact absurd (dropRegexWs_nil_allWs r2 h3 '[' hr2) (by decide)
      | cons c3 r3 =>
        rw [dropRegexWs_append_cons r2 t c3 r3 h3] at H3
        injection H3 with hc3 hR3
        subst hc3
        rw [matchHierarchyAt_build s r1 r2 r3 h1 h2 h3] at hfail
        exact absurd hfail (by simp)

theorem findHierarchyContent_mem (l r : List Char)
    (h : StreamingParser.findHierarchyContent l = some r) : '[' ∈ l := by
  induction l with
  | nil => simp [StreamingParser.findHierarchyContent] at h
  | cons c rest ih =>
    unfold StreamingParser.findHierarchyContent at h
    split at h
    · rename_i r0 hm
      exact matchHierarchyAt_mem _ r0 hm
    · exact List.mem_cons_of_mem _ (ih h)

theorem findHierarchyContent_append (l t r : List Char)
    (h : StreamingParser.findHierarchyContent l = some r) :
    StreamingParser.findHierarchyContent (l ++ t) = some (r ++ t) := by
  induction l with
  | nil => simp [StreamingParser.findHierarchyContent] at h
  | cons c rest ih =>
    rw [List.cons_append]
    unfold StreamingParser.findHierarchyContent at h ⊢
    split at h
    · rename_i r0 hm
      injection h with hr
      subst hr
      have h2 := matchHierarchyAt_append (c :: rest) t r0 hm
      rw [List.cons_append] at h2
      simp [h2]
    · rename_i hm
      cases hm2 : StreamingParser.matchHierarchyAt (c :: (rest ++ t)) with
      | some r' =>
        exfalso
        have hnot := matchHierarchyAt_newly (c :: rest) t r'
          (by rw [List.cons_append]; exact hm2) hm
        exact hnot (List.mem_cons_of_mem _ (findHierarchyContent_mem rest r h))
      | none =>
        simp only [hm2]
        exact ih h

theorem objScanStep_found (st : StreamingParser.ObjScanState) (c : Char) :
    (StreamingParser.objScanStep st c).found = st.found ∨
    ∃ x, (StreamingParser.objScanStep st c).found = st.found ++ [x] := by
  by_cases hesc : st.ctrl.escapeNext = true ∨ c = '\\'
  · left
    unfold StreamingParser.objScanStep
    rw [if_pos hesc]
  · have h2 := hesc
    push_neg at h2
    obtain ⟨hesc1, hbs⟩ := h2
    have hesc0 : st.ctrl.escapeNext = false := by
      cases hv : st.ctrl.escapeNext
      · rfl
      · exact absurd hv hesc1
    by_cases hop : (st.ctrl.inString = false ∧ c = '{' ∧ st.ctrl.braceCount = 0)
    · obtain ⟨hstr0, hco, hbc0⟩ := hop
      subst hco
      have hb1 : (StreamingParser.scanStep st.ctrl '{').braceCount = 1 := by
        simp [StreamingParser.scanStep, hesc0, hstr0, hbc0,
          show ¬ ('{' : Char) = '\\' by decide, show ¬ ('{' : Char) = '"' by decide]
      left
      simp [StreamingParser.objScanStep, hesc0, hstr0, hbc0, hb1,
        show ¬ ('{' : Char) = '\\' by decide]
    · cases hos : st.objectStart with
      | none =>
        left
        simp [StreamingParser.objScanStep, hesc0, hbs, hop, hos]
      | some a =>
        by_cases hdone : ((StreamingParser.scanStep st.ctrl c).braceCount = 0 ∧
            jsTrim (st.currentObject ++ [c]) ≠ [])
        · right
          refine ⟨(a, st.idx, st.currentObject ++ [c]), ?_⟩
          simp [StreamingParser.objScanStep, hesc0, hbs, hop, hos, hdone.1,
            hdone.2]
        · left
          simp [StreamingParser.objScanStep, hesc0, hbs, hop, hos, hdone]

theorem foldl_objScanStep_found (t : List Char) (st : StreamingParser.ObjScanState) :
    ∃ u, (List.foldl StreamingParser.objScanStep st t).found = st.found ++ u := by
  induction t generalizing st with
  | nil => exact ⟨[], by simp⟩
  | cons c t ih =>
    obtain ⟨u, hu⟩ := ih (StreamingParser.objScanStep st c)
    rcases objScanStep_found st c with h | ⟨x, hx⟩
    · exact ⟨u, by rw [List.foldl_cons, hu, h]⟩
    · refine ⟨x :: u, ?_⟩
      rw [List.foldl_cons, hu, hx, List.append_assoc]
      rfl

theorem extractCompleteObjectsSpans_append (l t : List Char) :
    ∃ u, StreamingParser.extractCompleteObjectsSpans (l ++ t) =
      StreamingParser.extractCompleteObjectsSpans l ++ u := by
  unfold StreamingParser.extractCompleteObjectsSpans StreamingParser.runObjScan
  rw [List.foldl_append]
  exact foldl_objScanStep_found t _

theorem extractCompleteObjects_append (l t : List Char) :
    ∃ u, StreamingParser.extractCompleteObjects (l ++ t) =
      StreamingParser.extractCompleteObjects l ++ u := by
  obtain ⟨u, hu⟩ := extractCompleteObjectsSpans_append l t
  refine ⟨u.filterMap (fun sp =>
    match jsonParse (jsTrim sp.2.2) with
    | some j => if StreamingParser.isValidHierarchyNode j then some j else none
    | none => none), ?_⟩
  unfold StreamingParser.extractCompleteObjects
  rw [hu, List.filterMap_append]

theorem hierarchyCandidates_append (b c : List Char) :
    ∃ u, StreamingParser.hierarchyCandidates (b ++ c) =
      StreamingParser.hierarchyCandidates b ++ u := by
  cases hf : StreamingParser.findHierarchyContent b with
  | none =>
    refine ⟨StreamingParser.hierarchyCandidates (b ++ c), ?_⟩
    have hb : StreamingParser.hierarchyCandidates b = [] := by
      simp [StreamingParser.hierarchyCandidates, hf]
    rw [hb, List.nil_append]
  | some r =>
    have h2 := findHierarchyContent_append b c r hf
    obtain ⟨u, hu⟩ := extractCompleteObjects_append r c
    refine ⟨u, ?_⟩
    simp [StreamingParser.hierarchyCandidates, h2, hf, hu]

theorem extractNewNodes_val (st' : StreamingParser.StreamingParseState)
    (b chunk : List Char) (u : List Json)
    (hacc : st'.accumulatedJson = b ++ chunk)
    (hpn : st'.parsedNodes = StreamingParser.hierarchyCandidates b)
    (hu : StreamingParser.hierarchyCandidates (b ++ chunk) =
      StreamingParser.hierarchyCandidates b ++ u) :
    StreamingParser.extractNewNodes st' = u := by
  unfold StreamingParser.extractNewNodes
  simp only [hacc, hpn]
  cases hf : StreamingParser.findHierarchyContent (b ++ chunk) with
  | none =>
    have h0 : StreamingParser.hierarchyCandidates (b ++ chunk) = [] := by
      simp [StreamingParser.hierarchyCandidates, hf]
    rw [h0] at hu
    have hu2 := (List.append_eq_nil.mp hu.symm).2
    simp [hf, hu2]
  | some content =>
    have h1 : StreamingParser.hierarchyCandidates (b ++ chunk) =
        StreamingParser.extractCompleteObjects content := by
      simp [StreamingParser.hierarchyCandidates, hf]
    rw [h1] at hu
    simp only [hf]
    rw [hu, List.drop_left]

theorem nodeDatas_append (a b : List StreamingParser.ParsedChunk) :
    StreamingParser.nodeDatas (a ++ b) =
      StreamingParser.nodeDatas a ++ StreamingParser.nodeDatas b := by
  unfold StreamingParser.nodeDatas
  rw [List.filterMap_append]

theorem nodeDatas_map_node (l : List Json) :
    StreamingParser.nodeDatas (l.map StreamingParser.ParsedChunk.node) = l := by
  induction l with
  | nil => rfl
  | cons d l ih =>
    rw [List.map_cons]
    unfold StreamingParser.nodeDatas at ih ⊢
    rw [List.filterMap_cons]
    simp only []
    rw [ih]

theorem mevCount_append (a b : List StreamingParser.ParsedChunk) :
    StreamingParser.mevCount (a ++ b) =
      StreamingParser.mevCount a + StreamingParser.mevCount b := by
  unfold StreamingParser.mevCount
  rw [List.filter_append, List.length_append]

theorem mevCount_map_node (l : List Json) :
    StreamingParser.mevCount (l.map StreamingParser.ParsedChunk.node) = 0 := by
  induction l with
  | nil => rfl
  | cons d l ih =>
    rw [List.map_cons]
    unfold StreamingParser.mevCount at ih ⊢
    rw [List.filter_cons]
    simp only [StreamingParser.isMetadataEvent]
    exact ih

theorem metaStep_acc (st0 : StreamingParser.StreamingParseState) :
    (StreamingParser.metaStep st0).2.accumulatedJson = st0.accumulatedJson := by
  unfold StreamingParser.metaStep
  split
  · rfl
  · split
    · rfl
    · rfl

theorem metaStep_nodes (st0 : StreamingParser.StreamingParseState) :
    (StreamingParser.metaStep st0).2.parsedNodes = st0.parsedNodes := by
  unfold StreamingParser.metaStep
  split
  · rfl
  · split
    · rfl
    · rfl

theorem metaStep_nodeDatas (st0 : StreamingParser.StreamingParseState) :
    StreamingParser.nodeDatas (StreamingParser.metaStep st0).1 = [] := by
  unfold StreamingParser.metaStep
  split
  · rfl
  · split
    · rfl
    · rfl

theorem metaStep_count (st0 : StreamingParser.StreamingParseState) :
    StreamingParser.mevCount (StreamingParser.metaStep st0).1 +
      StreamingParser.metaCapacity (StreamingParser.metaStep st0).2 ≤
      StreamingParser.metaCapacity st0 := by
  unfold StreamingParser.metaStep
  split
  · rename_i m heq
    simp [StreamingParser.mevCount, StreamingParser.metaCapacity, heq]
  · rename_i heq
    split
    · rename_i m hem
      simp [StreamingParser.mevCount, StreamingParser.metaCapacity, heq,
        StreamingParser.isMetadataEvent]
    · simp [StreamingParser.mevCount, StreamingParser.metaCapacity, heq]

theorem nodeDatas_complete (m : Option Json) (h : List Json) :
    StreamingParser.nodeDatas [StreamingParser.ParsedChunk.complete m h] = [] := rfl

theorem mevCount_complete (m : Option Json) (h : List Json) :
    StreamingParser.mevCount [StreamingParser.ParsedChunk.complete m h] = 0 := rfl

theorem metaCapacity_update (s : StreamingParser.StreamingParseState)
    (pn : List Json) :
    StreamingParser.metaCapacity ({ s with parsedNodes := pn, isComplete := true }) =
      StreamingParser.metaCapacity s := rfl

theorem metaCapacity_nodes_update (s : StreamingParser.StreamingParseState)
    (pn : List Json) :
    StreamingParser.metaCapacity ({ s with parsedNodes := pn }) =
      StreamingParser.metaCapacity s := rfl

theorem processChunk_spec (st : StreamingParser.StreamingParseState)
    (chunk : List Char) (ci : Nat)
    (hinv : st.parsedNodes =
      StreamingParser.hierarchyCandidates st.accumulatedJson) :
    (StreamingParser.processChunk st chunk ci).2.accumulatedJson =
      st.accumulatedJson ++ chunk ∧
    (StreamingParser.processChunk st chunk ci).2.parsedNodes =
      StreamingParser.hierarchyCandidates (st.accumulatedJson ++ chunk) ∧
    st.parsedNodes ++
      StreamingParser.nodeDatas (StreamingParser.processChunk st chunk ci).1 =
      StreamingParser.hierarchyCandidates (st.accumulatedJson ++ chunk) ∧
    StreamingParser.mevCount (StreamingParser.processChunk st chunk ci).1 +
      StreamingParser.metaCapacity (StreamingParser.processChunk st chunk ci).2 ≤
      StreamingParser.metaCapacity st := by
  obtain ⟨u, hu⟩ := hierarchyCandidates_append st.accumulatedJson chunk
  have hacc1 : (StreamingParser.metaStep ({ st with
      currentChunkIndex := ci,
      accumulatedJson := st.accumulatedJson ++ chunk })).2.accumulatedJson =
      st.accumulatedJson ++ chunk := by
    rw [metaStep_acc]
  have hpn1 : (StreamingParser.metaStep ({ st with
      currentChunkIndex := ci,
      accumulatedJson := st.accumulatedJson ++ chunk })).2.parsedNodes =
      StreamingParser.hierarchyCandidates st.accumulatedJson := by
    rw [metaStep_nodes]
    exact hinv
  have hnew : StreamingParser.extractNewNodes
      (StreamingParser.metaStep ({ st with
        currentChunkIndex := ci,
        accumulatedJson := st.accumulatedJson ++ chunk })).2 = u :=
    extractNewNodes_val _ st.accumulatedJson chunk u hacc1 hpn1 hu
  have hms := metaStep_count ({ st with
      currentChunkIndex := ci,
      accumulatedJson := st.accumulatedJson ++ chunk })
  have hcap0 : StreamingParser.metaCapacity ({ st with
      currentChunkIndex := ci,
      accumulatedJson := st.accumulatedJson ++ chunk }) =
      StreamingParser.metaCapacity st := rfl
  rw [hcap0] at hms
  simp only [StreamingParser.processChunk]
  split
  · refine ⟨hacc1, ?_, ?_, ?_⟩
    · simp only [hpn1, hnew]
      exact hu.symm
    · rw [nodeDatas_append, nodeDatas_append, metaStep_nodeDatas,
        nodeDatas_map_node, hnew, hinv]
      rw [nodeDatas_complete, List.append_nil, List.nil_append]
      exact hu.symm
    · rw [mevCount_append, mevCount_append, mevCount_map_node, mevCount_complete]
      rw [metaCapacity_update]
      omega
  · refine ⟨hacc1, ?_, ?_, ?_⟩
    · simp only [hpn1, hnew]
      exact hu.symm
    · rw [nodeDatas_append, metaStep_nodeDatas, nodeDatas_map_node, hnew, hinv]
      rw [List.nil_append]
      exact hu.symm
    · rw [mevCount_append, mevCount_map_node]
      rw [metaCapacity_nodes_update]
      omega

theorem runChunks_spec (frags : List (List Char))
    (st : StreamingParser.StreamingParseState)
    (hinv : st.parsedNodes =
      StreamingParser.hierarchyCandidates st.accumulatedJson) :
    (StreamingParser.runChunks st frags).2.accumulatedJson =
      st.accumulatedJson ++ frags.flatten ∧
    st.parsedNodes ++
      StreamingParser.nodeDatas (StreamingParser.runChunks st frags).1 =
      StreamingParser.hierarchyCandidates (st.accumulatedJson ++ frags.flatten) ∧
    StreamingParser.mevCount (StreamingParser.runChunks st frags).1 +
      StreamingParser.metaCapacity (StreamingParser.runChunks st frags).2 ≤
      StreamingParser.metaCapacity st := by
  induction frags generalizing st with
  | nil =>
    refine ⟨by simp [StreamingParser.runChunks], ?_, ?_⟩
    · simp [StreamingParser.runChunks, StreamingParser.nodeDatas, hinv]
    · simp [StreamingParser.runChunks, StreamingParser.mevCount]
  | cons c rest ih =>
    obtain ⟨h1, h2, h3, h4⟩ := processChunk_spec st c 0 hinv
    have hinv2 : (StreamingParser.processChunk st c 0).2.parsedNodes =
        StreamingParser.hierarchyCandidates
          ((StreamingParser.processChunk st c 0).2.accumulatedJson) := by
      rw [h1, h2]
    obtain ⟨g1, g2, g3⟩ := ih (StreamingParser.processChunk st c 0).2 hinv2
    refine ⟨?_, ?_, ?_⟩
    · show (StreamingParser.runChunks
          (StreamingParser.processChunk st c 0).2 rest).2.accumulatedJson = _
      rw [g1, h1, List.flatten_cons, List.append_assoc]
    · show st.parsedNodes ++ StreamingParser.nodeDatas
          ((StreamingParser.processChunk st c 0).1 ++
            (StreamingParser.runChunks
              (StreamingParser.processChunk st c 0).2 rest).1) = _
      rw [nodeDatas_append, ← List.append_assoc, h3]
      rw [h2, h1] at g2
      rw [g2, List.flatten_cons, List.append_assoc]
    · show StreamingParser.mevCount
          ((StreamingParser.processChunk st c 0).1 ++
            (StreamingParser.runChunks
              (StreamingParser.processChunk st c 0).2 rest).1) +
          StreamingParser.metaCapacity
            (StreamingParser.runChunks
              (StreamingParser.processChunk st c 0).2 rest).2 ≤ _
      rw [mevCount_append]
      omega

set_option maxHeartbeats 1000000 in
/-- C3 (amended): over any sequence of `processChunk` calls on one parser
instance (each call appending its fragment to the accumulated buffer), the
emitted `node` payloads taken together are exactly the complete shape-valid
hierarchy objects of the final buffer, each occurrence emitted exactly
once — the de-duplication is positional (by count), not by `id` — and at
most one `metadata` event is emitted over the whole sequence. -/
theorem processChunk_monotonic_emission (frags : List (List Char)) :
    StreamingParser.nodeDatas
      (StreamingParser.runChunks StreamingParser.initialState frags).1 =
      StreamingParser.hierarchyCandidates frags.flatten ∧
    StreamingParser.mevCount
      (StreamingParser.runChunks StreamingParser.initialState frags).1 ≤ 1 := by
  obtain ⟨h1, h2, h3⟩ := runChunks_spec frags StreamingParser.initialState rfl
  constructor
  · simpa using h2
  · have hc : StreamingParser.metaCapacity StreamingParser.initialState = 1 := rfl
    omega

set_option maxHeartbeats 2000000 in
/-- C3 counterexample: a single `processChunk` call on a buffer whose
hierarchy array contains two objects with the same id `"a"` emits two
`node` events for that id: the count-based slicing of `extractNewNodes`
never compares ids. -/
theorem processChunk_duplicate_id_cex :
    StreamingParser.nodeDatas
      (StreamingParser.processChunk StreamingParser.initialState c3DupInput 0).1 =
      [c3DupNode, c3DupNode] := by rfl

/-! ## C6: exactly one terminal event per invocation -/

namespace EnhancedStreamingService

theorem tevCount_append (a b : List OrchEvent) :
    tevCount (a ++ b) = tevCount a + tevCount b := by
  unfold tevCount
  rw [List.filter_append, List.length_append]

theorem tevCount_progress (p : ℚ) (m : String) :
    tevCount [OrchEvent.progress p m] = 0 := rfl

theorem tevCount_chunkEvs (l : List StreamingParser.ParsedChunk) :
    tevCount (l.map OrchEvent.chunkEv) = 0 := by
  induction l with
  | nil => rfl
  | cons p l ih =>
    rw [List.map_cons]
    unfold tevCount at ih ⊢
    rw [List.filter_cons]
    simp only [isTerminalEvent]
    simpa using ih

theorem singleFold_tev (frags : List (List Char))
    (acc : List OrchEvent × OrchState × Nat) :
    tevCount ((frags.foldl singleFragmentStep acc).1) = tevCount acc.1 := by
  induction frags generalizing acc with
  | nil => rfl
  | cons c rest ih =>
    rw [List.foldl_cons, ih]
    simp only [singleFragmentStep]
    rw [tevCount_append, tevCount_append, tevCount_chunkEvs, tevCount_progress]
    omega

theorem chunkFold_tev (frags : List (List Char))
    (acc : List OrchEvent × OrchState × StreamingParser.StreamingParseState) :
    tevCount ((frags.foldl chunkFragmentStep acc).1) = tevCount acc.1 := by
  induction frags generalizing acc with
  | nil => rfl
  | cons c rest ih =>
    rw [List.foldl_cons, ih]
    simp only [chunkFragmentStep]
    rw [tevCount_append, tevCount_chunkEvs]
    omega

theorem processSingleDocument_tev (st0 : OrchState) (stream : ModelStream) :
    tevCount (processSingleDocument st0 stream).1 =
      (match (processSingleDocument st0 stream).2 with
       | Except.ok _ => 1
       | Except.error _ => 0) := by
  unfold processSingleDocument
  cases ht : stream.throwsAfter with
  | some msg =>
    simp only [ht]
    rw [tevCount_append, singleFold_tev]
    rfl
  | none =>
    simp only [ht]
    rw [tevCount_append, tevCount_append, singleFold_tev]
    rfl

theorem processOneChunk_tev (st : OrchState) (stream : ModelStream) :
    tevCount (processOneChunk st stream).1 = 0 := by
  unfold processOneChunk
  cases ht : stream.throwsAfter with
  | some msg =>
    simp only [ht]
    rw [chunkFold_tev]
    rfl
  | none =>
    simp only [ht]
    rw [chunkFold_tev]
    rfl

theorem processChunksLoop_tev (streams : Nat → ModelStream) (total : Nat)
    (st : OrchState) (chunks : List DocumentChunker.DocumentChunk) :
    tevCount (processChunksLoop streams total st chunks).1 = 0 := by
  induction chunks generalizing st with
  | nil => rfl
  | cons ch rest ih =>
    unfold processChunksLoop
    cases hr : (processOneChunk st (streams ch.index)).2 with
    | error e =>
      simp only [hr]
      rw [tevCount_append, processOneChunk_tev]
      rfl
    | ok st2 =>
      simp only [hr]
      rw [tevCount_append, tevCount_append, tevCount_append,
        processOneChunk_tev, ih]
      rfl

theorem processLargeDocument_tev (st0 : OrchState)
    (splitText : List Char → Option (List (List Char)))
    (chunkStreams : Nat → ModelStream) (documentText : List Char) :
    tevCount (processLargeDocument st0 splitText chunkStreams documentText).1 =
      (match (processLargeDocument st0 splitText chunkStreams documentText).2 with
       | Except.ok _ => 1
       | Except.error _ => 0) := by
  unfold processLargeDocument
  cases hc : DocumentChunker.chunkDocument DocumentChunker.defaultConfig
      splitText documentText with
  | error e =>
    simp only [hc]
    rfl
  | ok chunks =>
    simp only [hc]
    cases hr : (processChunksLoop chunkStreams chunks.length st0 chunks).2 with
    | error e =>
      simp only [hr]
      rw [tevCount_append, processChunksLoop_tev]
      rfl
    | ok st2 =>
      simp only [hr]
      rw [tevCount_append, tevCount_append, processChunksLoop_tev]
      rfl

/-- C6: every invocation of `streamDocumentParsing` terminates its event
stream with exactly one terminal callback — either one `onComplete`
(carrying the merged result, with the placeholder metadata object when no
metadata was ever observed, by `mkFinalData`) or one `onError` — never both
and never more than one, in both the single-document and the chunked path,
regardless of how many fragments, chunks or stream errors occurred. -/
theorem streamDocumentParsing_one_terminal (documentText : List Char)
    (stream : ModelStream)
    (splitText : List Char → Option (List (List Char)))
    (chunkStreams : Nat → ModelStream) :
    tevCount (streamDocumentParsing documentText stream splitText
      chunkStreams) = 1 := by
  simp only [streamDocumentParsing]
  by_cases hx : DocumentChunker.exceedsTokenLimit documentText 30000 = true
  · rw [if_pos hx]
    have h := processLargeDocument_tev
      ⟨StreamingParser.resetState StreamingParser.initialState, [], none, []⟩
      splitText chunkStreams documentText
    cases hr : (processLargeDocument
        ⟨StreamingParser.resetState StreamingParser.initialState, [], none, []⟩
        splitText chunkStreams documentText).2 with
    | ok st2 =>
      have h1 : tevCount (processLargeDocument
          ⟨StreamingParser.resetState StreamingParser.initialState, [], none, []⟩
          splitText chunkStreams documentText).1 = 1 := by
        rw [hr] at h
        exact h
      simp only [hr]
      rw [tevCount_append, h1]
      rfl
    | error e =>
      have h1 : tevCount (processLargeDocument
          ⟨StreamingParser.resetState StreamingParser.initialState, [], none, []⟩
          splitText chunkStreams documentText).1 = 0 := by
        rw [hr] at h
        exact h
      simp only [hr]
      rw [tevCount_append, tevCount_append, h1]
      rfl
  · rw [if_neg hx]
    have h := processSingleDocument_tev
      ⟨StreamingParser.resetState StreamingParser.initialState, [], none, []⟩
      stream
    cases hr : (processSingleDocument
        ⟨StreamingParser.resetState StreamingParser.initialState, [], none, []⟩
        stream).2 with
    | ok st2 =>
      have h1 : tevCount (processSingleDocument
          ⟨StreamingParser.resetState StreamingParser.initialState, [], none, []⟩
          stream).1 = 1 := by
        rw [hr] at h
        exact h
      simp only [hr]
      rw [tevCount_append, h1]
      rfl
    | error e =>
      have h1 : tevCount (processSingleDocument
          ⟨StreamingParser.resetState StreamingParser.initialState, [], none, []⟩
          stream).1 = 0 := by
        rw [hr] at h
        exact h
      simp only [hr]
      rw [tevCount_append, tevCount_append, h1]
      rfl

end EnhancedStreamingService

end ReguGraph
